import Mathlib

set_option maxHeartbeats 1000000

/-!
Verification development for the go-layers repository: a FoundationDB-style
queue layer (package queue), its subspace/tuple key codec, and the
high-contention pop coordination protocol.

The ordered transactional store is modelled as an association list of
byte-string keys and values kept strictly sorted by the lexicographic byte
order keyLt.  The tuple codec models the FoundationDB tuple encoding for
the element kinds this repository produces: byte strings (type code 0x01),
unicode strings (0x02, the repository only uses ASCII namespace tags), and
signed integers (codes 0x14 plus/minus the big-endian byte length).
-/

/-- Strict lexicographic order on byte strings, as computed by bytes.Compare
in Go: a shorter string that is a prefix of a longer one is smaller. -/
def keyLt : List Nat → List Nat → Bool
  | [], [] => false
  | [], _ :: _ => true
  | _ :: _, [] => false
  | a :: as, b :: bs => if a < b then true else if a = b then keyLt as bs else false

theorem keyLt_irrefl (l : List Nat) : keyLt l l = false := by
  induction l with
  | nil => rfl
  | cons a as ih => simp [keyLt, ih]

theorem keyLt_cons_of_lt {x y : Nat} (h : x < y) (as bs : List Nat) :
    keyLt (x :: as) (y :: bs) = true := by
  simp [keyLt, h]

theorem keyLt_trans {a b c : List Nat} (h1 : keyLt a b = true) (h2 : keyLt b c = true) :
    keyLt a c = true := by
  induction a generalizing b c with
  | nil =>
    cases c with
    | nil =>
      cases b with
      | nil => exact h1
      | cons y bs => simp [keyLt] at h2
    | cons z cs => rfl
  | cons x as ih =>
    cases b with
    | nil => simp [keyLt] at h1
    | cons y bs =>
      cases c with
      | nil => simp [keyLt] at h2
      | cons z cs =>
        simp only [keyLt] at h1 h2 ⊢
        by_cases hxy : x < y
        · by_cases hyz : y < z
          · simp [Nat.lt_trans hxy hyz]
          · simp [hyz] at h2
            rcases h2 with ⟨hEq, h2'⟩
            simp [hEq ▸ hxy]
        · simp [hxy] at h1
          rcases h1 with ⟨hEq, h1'⟩
          subst hEq
          by_cases hyz : x < z
          · simp [hyz]
          · simp [hyz] at h2 ⊢
            rcases h2 with ⟨hEq2, h2'⟩
            exact ⟨hEq2, ih h1' h2'⟩

theorem keyLt_total {a b : List Nat} (h : keyLt a b = false) :
    a = b ∨ keyLt b a = true := by
  induction a generalizing b with
  | nil =>
    cases b with
    | nil => exact Or.inl rfl
    | cons y bs => simp [keyLt] at h
  | cons x as ih =>
    cases b with
    | nil => exact Or.inr rfl
    | cons y bs =>
      rcases Nat.lt_trichotomy x y with hxy | hxy | hxy
      · simp [keyLt, hxy] at h
      · subst hxy
        simp only [keyLt, Nat.lt_irrefl, if_false, if_pos rfl] at h
        rcases ih h with h' | h'
        · exact Or.inl (by rw [h'])
        · exact Or.inr (by simp [keyLt, h'])
      · exact Or.inr (keyLt_cons_of_lt hxy bs as)

theorem keyLt_asymm {a b : List Nat} (h : keyLt a b = true) : keyLt b a = false := by
  by_contra hc
  have hba : keyLt b a = true := by
    cases hb : keyLt b a
    · exact absurd hb hc
    · rfl
  have := keyLt_trans h hba
  rw [keyLt_irrefl] at this
  exact Bool.false_ne_true this

theorem keyLt_append_left (p a b : List Nat) :
    keyLt (p ++ a) (p ++ b) = keyLt a b := by
  induction p with
  | nil => rfl
  | cons x ps ih => simp [keyLt, ih]

theorem keyLt_append_of_length_eq {a b : List Nat} (r1 r2 : List Nat)
    (hlen : a.length = b.length) (h : keyLt a b = true) :
    keyLt (a ++ r1) (b ++ r2) = true := by
  induction a generalizing b with
  | nil =>
    cases b with
    | nil => simp [keyLt_irrefl] at h
    | cons y bs => simp at hlen
  | cons x as ih =>
    cases b with
    | nil => simp at hlen
    | cons y bs =>
      simp only [keyLt, List.cons_append] at h ⊢
      by_cases hxy : x < y
      · simp [hxy]
      · simp [hxy] at h ⊢
        rcases h with ⟨hEq, h'⟩
        exact ⟨hEq, ih (by simpa using hlen) h'⟩

theorem keyLt_self_append (l : List Nat) (x : Nat) (r : List Nat) :
    keyLt l (l ++ x :: r) = true := by
  induction l with
  | nil => rfl
  | cons a as ih => simp [keyLt, ih]

/-! ## Tuple codec (FoundationDB tuple layer, as consumed via fdb/tuple) -/

/-- Escape the byte 0x00 inside byte/string element payloads as 0x00 0xFF. -/
def escape : List Nat → List Nat
  | [] => []
  | c :: rest => if c = 0 then 0 :: 255 :: escape rest else c :: escape rest

/-- Parse an escaped payload up to (and consuming) its 0x00 terminator,
returning the payload and the remaining input. -/
def parseEscaped : List Nat → Option (List Nat × List Nat)
  | [] => none
  | c :: rest =>
    if c = 0 then
      match rest with
      | [] => some ([], [])
      | c2 :: rest2 =>
        if c2 = 255 then
          match parseEscaped rest2 with
          | some (s, rem) => some (0 :: s, rem)
          | none => none
        else some ([], c2 :: rest2)
    else
      match parseEscaped rest with
      | some (s, rem) => some (c :: s, rem)
      | none => none

/-- Number of base-256 digits, fuelled so the kernel can evaluate it. -/
def byteLenAux : Nat → Nat → Nat
  | 0, _ => 0
  | fuel + 1, n => if n = 0 then 0 else byteLenAux fuel (n / 256) + 1

/-- Number of base-256 digits of a natural number (0 for 0). -/
def byteLen (n : Nat) : Nat := byteLenAux n n

theorem byteLenAux_zero (f : Nat) : byteLenAux f 0 = 0 := by
  cases f <;> rfl

theorem byteLenAux_congr : ∀ {f1 f2 n : Nat}, n ≤ f1 → n ≤ f2 →
    byteLenAux f1 n = byteLenAux f2 n := by
  intro f1
  induction f1 with
  | zero =>
    intro f2 n h1 _
    have : n = 0 := Nat.le_zero.mp h1
    subst this
    rw [byteLenAux_zero, byteLenAux_zero]
  | succ f ih =>
    intro f2 n h1 h2
    by_cases hn : n = 0
    · subst hn
      rw [byteLenAux_zero, byteLenAux_zero]
    · have hpos : 0 < n := Nat.pos_of_ne_zero hn
      cases f2 with
      | zero => omega
      | succ f2' =>
        have hdiv : n / 256 < n := Nat.div_lt_self hpos (by decide)
        show (if n = 0 then 0 else byteLenAux f (n / 256) + 1)
            = (if n = 0 then 0 else byteLenAux f2' (n / 256) + 1)
        rw [if_neg hn, if_neg hn]
        rw [ih (show n / 256 <= f by omega) (show n / 256 <= f2' by omega)]

/-- The defining recurrence of byteLen. -/
theorem byteLen_eq (n : Nat) : byteLen n = if n = 0 then 0 else byteLen (n / 256) + 1 := by
  by_cases hn : n = 0
  · subst hn
    rfl
  · rw [if_neg hn]
    cases n with
    | zero => exact absurd rfl hn
    | succ m =>
      show byteLenAux (m + 1) (m + 1) = byteLen ((m + 1) / 256) + 1
      have hdiv : (m + 1) / 256 < m + 1 := Nat.div_lt_self (by omega) (by decide)
      simp only [byteLenAux, if_neg hn]
      rw [byteLen]
      rw [byteLenAux_congr (by omega) (Nat.le_refl _)]

/-- Big-endian base-256 digits of x padded to exactly L bytes. -/
def bePad : Nat → Nat → List Nat
  | 0, _ => []
  | L + 1, x => x / 256 ^ L :: bePad L (x % 256 ^ L)

/-- Value of a big-endian digit list. -/
def beVal : List Nat → Nat
  | [] => 0
  | d :: ds => d * 256 ^ ds.length + beVal ds

/-- Typed tuple elements this repository stores in keys and values. -/
inductive TElem
  | int (n : Int)
  | bytes (b : List Nat)
  | str (s : List Nat)
deriving DecidableEq, Repr

/-- FoundationDB encoding of an integer element: type code 0x14 plus the
byte length for nonnegative values (big-endian magnitude), 0x14 minus the
byte length for negative values (ones-complement-style offset bytes). -/
def encInt (n : Int) : List Nat :=
  if 0 ≤ n then
    (20 + byteLen n.toNat) :: bePad (byteLen n.toNat) n.toNat
  else
    (20 - byteLen (-n).toNat) :: bePad (byteLen (-n).toNat) (256 ^ byteLen (-n).toNat - 1 - (-n).toNat)

/-- Encoding of one tuple element. -/
def encElem : TElem → List Nat
  | .bytes b => 1 :: (escape b ++ [0])
  | .str s => 2 :: (escape s ++ [0])
  | .int n => encInt n

/-- tuple.Tuple.Pack: concatenation of the element encodings. -/
def pack : List TElem → List Nat
  | [] => []
  | e :: t => encElem e ++ pack t

/-- Parse one element from the front of a packed byte string. -/
def parseElem : List Nat → Option (TElem × List Nat)
  | [] => none
  | c :: rest =>
    if c = 1 then
      match parseEscaped rest with
      | some (s, rem) => some (.bytes s, rem)
      | none => none
    else if c = 2 then
      match parseEscaped rest with
      | some (s, rem) => some (.str s, rem)
      | none => none
    else if 20 ≤ c then
      if rest.length < c - 20 then none
      else some (.int (beVal (rest.take (c - 20))), rest.drop (c - 20))
    else if 12 ≤ c then
      if rest.length < 20 - c then none
      else some (.int ((beVal (rest.take (20 - c)) : Int) - (256 ^ (20 - c) - 1)), rest.drop (20 - c))
    else none

/-- Fuelled element-by-element unpacking. -/
def unpackAux : Nat → List Nat → Option (List TElem)
  | _, [] => some []
  | 0, _ :: _ => none
  | fuel + 1, c :: rest =>
    match parseElem (c :: rest) with
    | some (e, rem) =>
      match unpackAux fuel rem with
      | some t => some (e :: t)
      | none => none
    | none => none

/-- tuple.Unpack: parse a whole packed tuple (the input length bounds the
number of elements, since every element encoding takes at least one byte). -/
def tupleUnpack (l : List Nat) : Option (List TElem) := unpackAux l.length l

/-- Int64 representability of an element, as stored by this repository. -/
def TElem.wf : TElem → Bool
  | .int n => decide (-(2 ^ 63) ≤ n ∧ n < 2 ^ 63)
  | _ => true

def tupWf (t : List TElem) : Bool := t.all TElem.wf

/-- The logical order on elements that the codec's byte order realises:
byte strings sort before unicode strings sort before integers (by type
code), byte and unicode strings compare lexicographically, integers
compare numerically. -/
def eltLt : TElem → TElem → Bool
  | .bytes a, .bytes b => keyLt a b
  | .bytes _, .str _ => true
  | .bytes _, .int _ => true
  | .str _, .bytes _ => false
  | .str a, .str b => keyLt a b
  | .str _, .int _ => true
  | .int _, .bytes _ => false
  | .int _, .str _ => false
  | .int a, .int b => decide (a < b)

/-- The logical (lexicographic) order on tuples over eltLt; a strict
initial segment of a longer tuple sorts first. -/
def tupLt : List TElem → List TElem → Bool
  | _, [] => false
  | [], _ :: _ => true
  | a :: as, b :: bs => eltLt a b || (a == b && tupLt as bs)

/-- True when the input does not begin with byte 0xFF (every packed tuple
continuation begins with a type code below 0xFF). -/
def headLt255 : List Nat → Bool
  | [] => true
  | c :: _ => decide (c < 255)

/-! ## Codec round-trip lemmas -/

theorem parseEscaped_escape (s : List Nat) {rest : List Nat}
    (h : headLt255 rest = true) :
    parseEscaped (escape s ++ 0 :: rest) = some (s, rest) := by
  induction s with
  | nil =>
    cases rest with
    | nil => rfl
    | cons c2 r2 =>
      have hne : c2 ≠ 255 := by
        have : c2 < 255 := by simpa [headLt255] using h
        omega
      show parseEscaped (0 :: c2 :: r2) = some ([], c2 :: r2)
      rw [parseEscaped.eq_def]
      simp [hne]
  | cons c s' ih =>
    by_cases hc : c = 0
    · subst hc
      simp only [escape, if_pos rfl, List.cons_append]
      rw [parseEscaped.eq_def]
      simp [ih]
    · simp only [escape, if_neg hc, List.cons_append]
      rw [parseEscaped.eq_def]
      simp [hc, ih]

theorem byteLen_lt_pow (n : Nat) : n < 256 ^ byteLen n := by
  induction n using Nat.strong_induction_on with
  | _ n ih =>
    by_cases h : n = 0
    · subst h; decide
    · rw [byteLen_eq, if_neg h]
      have hd : n / 256 < n := Nat.div_lt_self (Nat.pos_of_ne_zero h) (by decide)
      have hih := ih (n / 256) hd
      have h1 : n < 256 * (n / 256) + 256 := by omega
      have h2 : 256 * (n / 256) + 256 ≤ 256 * 256 ^ byteLen (n / 256) := by
        have : n / 256 + 1 ≤ 256 ^ byteLen (n / 256) := hih
        calc 256 * (n / 256) + 256 = 256 * (n / 256 + 1) := by ring
          _ ≤ 256 * 256 ^ byteLen (n / 256) := Nat.mul_le_mul_left 256 this
      calc n < 256 * (n / 256) + 256 := h1
        _ ≤ 256 * 256 ^ byteLen (n / 256) := h2
        _ = 256 ^ (byteLen (n / 256) + 1) := by ring

theorem byteLen_le_of_lt {n L : Nat} (h : n < 256 ^ L) : byteLen n ≤ L := by
  induction L generalizing n with
  | zero =>
    have : n = 0 := by simpa using Nat.lt_one_iff.mp (by simpa using h)
    subst this; decide
  | succ L ih =>
    by_cases h0 : n = 0
    · subst h0
      exact Nat.zero_le _
    · rw [byteLen_eq, if_neg h0]
      have hlt : n / 256 < 256 ^ L := by
        apply Nat.div_lt_of_lt_mul
        calc n < 256 ^ (L + 1) := h
          _ = 256 * 256 ^ L := by ring
      exact Nat.succ_le_succ (ih hlt)

theorem byteLen_mono {m n : Nat} (h : m ≤ n) : byteLen m ≤ byteLen n :=
  byteLen_le_of_lt (Nat.lt_of_le_of_lt h (byteLen_lt_pow n))

theorem byteLen_pos {n : Nat} (h : 0 < n) : 0 < byteLen n := by
  rw [byteLen_eq, if_neg (Nat.pos_iff_ne_zero.mp h)]
  omega

theorem bePad_length (L x : Nat) : (bePad L x).length = L := by
  induction L generalizing x with
  | zero => rfl
  | succ L ih => simp [bePad, ih]

theorem beVal_bePad {L x : Nat} (h : x < 256 ^ L) : beVal (bePad L x) = x := by
  induction L generalizing x with
  | zero =>
    have : x = 0 := by simpa using Nat.lt_one_iff.mp (by simpa using h)
    subst this; rfl
  | succ L ih =>
    have hpos : 0 < 256 ^ L := Nat.pos_pow_of_pos L (by decide)
    simp only [bePad, beVal, bePad_length]
    rw [ih (Nat.mod_lt _ hpos)]
    exact Nat.div_add_mod' x (256 ^ L)

theorem bePad_lt {L x y : Nat} (hxy : x < y) (hy : y < 256 ^ L) :
    keyLt (bePad L x) (bePad L y) = true := by
  induction L generalizing x y with
  | zero =>
    exfalso
    have : y = 0 := by simpa using Nat.lt_one_iff.mp (by simpa using hy)
    omega
  | succ L ih =>
    have hpos : 0 < 256 ^ L := Nat.pos_pow_of_pos L (by decide)
    simp only [bePad]
    have hdle : x / 256 ^ L ≤ y / 256 ^ L := Nat.div_le_div_right (Nat.le_of_lt hxy)
    rcases Nat.lt_or_ge (x / 256 ^ L) (y / 256 ^ L) with hd | hd
    · exact keyLt_cons_of_lt hd _ _
    · have hdeq : x / 256 ^ L = y / 256 ^ L := Nat.le_antisymm hdle hd
      have h1 := Nat.div_add_mod x (256 ^ L)
      have h2 := Nat.div_add_mod y (256 ^ L)
      rw [hdeq] at h1
      have hmod : x % 256 ^ L < y % 256 ^ L := by
        have hgen : ∀ t : Nat, t + x % 256 ^ L = x → t + y % 256 ^ L = y → x % 256 ^ L < y % 256 ^ L := by
          intro t ht1 ht2; omega
        exact hgen (256 ^ L * (y / 256 ^ L)) h1 h2
      rw [hdeq]
      simp only [keyLt, Nat.lt_irrefl, if_false, if_pos rfl]
      exact ih hmod (Nat.mod_lt _ hpos)

theorem encInt_nonneg {n : Int} (h : 0 ≤ n) :
    encInt n = (20 + byteLen n.toNat) :: bePad (byteLen n.toNat) n.toNat := by
  simp [encInt, h]

theorem encInt_neg {n : Int} (h : ¬ 0 ≤ n) :
    encInt n = (20 - byteLen (-n).toNat) ::
      bePad (byteLen (-n).toNat) (256 ^ byteLen (-n).toNat - 1 - (-n).toNat) := by
  simp [encInt, h]

theorem parseElem_encElem {e : TElem} (wf : TElem.wf e = true) {rest : List Nat}
    (hrest : headLt255 rest = true) :
    parseElem (encElem e ++ rest) = some (e, rest) := by
  cases e with
  | bytes b =>
    show parseElem (1 :: ((escape b ++ [0]) ++ rest)) = some (.bytes b, rest)
    have hassoc : (escape b ++ [0]) ++ rest = escape b ++ 0 :: rest := by simp
    rw [hassoc]
    simp [parseElem, parseEscaped_escape b hrest]
  | str s =>
    show parseElem (2 :: ((escape s ++ [0]) ++ rest)) = some (.str s, rest)
    have hassoc : (escape s ++ [0]) ++ rest = escape s ++ 0 :: rest := by simp
    rw [hassoc]
    simp [parseElem, parseEscaped_escape s hrest]
  | int n =>
    by_cases h : 0 ≤ n
    · have henc : encElem (.int n) ++ rest
          = (20 + byteLen n.toNat) :: (bePad (byteLen n.toNat) n.toNat ++ rest) := by
        simp [encElem, encInt_nonneg h]
      rw [henc]
      have hL := bePad_length (byteLen n.toNat) n.toNat
      have hm := byteLen_lt_pow n.toNat
      simp only [parseElem]
      rw [if_neg (by omega), if_neg (by omega), if_pos (by omega : 20 ≤ 20 + byteLen n.toNat)]
      have hsub : 20 + byteLen n.toNat - 20 = byteLen n.toNat := by omega
      rw [hsub]
      rw [if_neg (by simp [hL])]
      rw [List.take_left' hL, List.drop_left' hL]
      rw [beVal_bePad hm]
      rw [Int.toNat_of_nonneg h]
    · -- negative integer; int64 representability bounds the byte length by 8
      have hneg : n < 0 := by omega
      have hb : -(2 ^ 63) ≤ n := by
        have := of_decide_eq_true wf
        exact this.1
      have hmpos : 1 ≤ (-n).toNat := by omega
      have hmle : (-n).toNat ≤ 2 ^ 63 := by omega
      have hL8 : byteLen (-n).toNat ≤ 8 := by
        apply byteLen_le_of_lt
        calc (-n).toNat ≤ 2 ^ 63 := hmle
          _ < 256 ^ 8 := by norm_num
      have hL1 : 1 ≤ byteLen (-n).toNat := byteLen_pos (by omega)
      have henc : encElem (.int n) ++ rest
          = (20 - byteLen (-n).toNat) ::
            (bePad (byteLen (-n).toNat) (256 ^ byteLen (-n).toNat - 1 - (-n).toNat) ++ rest) := by
        simp [encElem, encInt_neg h]
      rw [henc]
      have hL := bePad_length (byteLen (-n).toNat) (256 ^ byteLen (-n).toNat - 1 - (-n).toNat)
      have hmlt : (-n).toNat < 256 ^ byteLen (-n).toNat := byteLen_lt_pow (-n).toNat
      simp only [parseElem]
      rw [if_neg (by omega), if_neg (by omega), if_neg (by omega), if_pos (by omega : 12 ≤ 20 - byteLen (-n).toNat)]
      have hsub : 20 - (20 - byteLen (-n).toNat) = byteLen (-n).toNat := by omega
      rw [hsub]
      rw [if_neg (by simp [hL])]
      rw [List.take_left' hL, List.drop_left' hL]
      rw [beVal_bePad (by omega)]
      have hcast : ((256 ^ byteLen (-n).toNat - 1 - (-n).toNat : Nat) : Int)
          = (256 ^ byteLen (-n).toNat - 1 : Int) - ((-n).toNat : Int) := by
        have h1 : (-n).toNat ≤ 256 ^ byteLen (-n).toNat - 1 := by omega
        have h2 : 1 ≤ 256 ^ byteLen (-n).toNat := Nat.pos_pow_of_pos _ (by decide)
        push_cast [Nat.cast_sub h1, Nat.cast_sub h2]
        ring
      rw [hcast]
      have hnn : (((-n).toNat : Int)) = -n := Int.toNat_of_nonneg (by omega)
      rw [hnn]
      norm_num

theorem encElem_ne_nil (e : TElem) : encElem e ≠ [] := by
  cases e with
  | bytes b => simp [encElem]
  | str s => simp [encElem]
  | int n =>
    by_cases h : 0 ≤ n
    · rw [encElem, encInt_nonneg h]; simp
    · rw [encElem, encInt_neg h]; simp

theorem pack_headLt255 {t : List TElem} (wf : tupWf t = true) :
    headLt255 (pack t) = true := by
  cases t with
  | nil => rfl
  | cons e t' =>
    have hwfe : TElem.wf e = true := by
      simp [tupWf] at wf
      exact wf.1
    cases e with
    | bytes b => simp [pack, encElem, headLt255]
    | str s => simp [pack, encElem, headLt255]
    | int n =>
      by_cases h : 0 ≤ n
      · have hlt : n < 2 ^ 63 := by
          have := of_decide_eq_true hwfe
          exact this.2
        have hL8 : byteLen n.toNat ≤ 8 := by
          apply byteLen_le_of_lt
          have : n.toNat < 2 ^ 63 := by omega
          calc n.toNat < 2 ^ 63 := this
            _ < 256 ^ 8 := by norm_num
        simp only [pack, encElem, encInt_nonneg h, List.cons_append, headLt255]
        simp
        omega
      · simp only [pack, encElem, encInt_neg h, List.cons_append, headLt255]
        simp
        omega

theorem unpackAux_pack (t : List TElem) (hwf : tupWf t = true) :
    ∀ fuel, (pack t).length ≤ fuel → unpackAux fuel (pack t) = some t := by
  induction t with
  | nil => intro fuel _; cases fuel <;> rfl
  | cons e t' ih =>
    intro fuel hlen
    have hwfe : TElem.wf e = true := by
      simp [tupWf] at hwf
      exact hwf.1
    have hwft : tupWf t' = true := by
      simp only [tupWf, List.all_cons, Bool.and_eq_true] at hwf
      exact hwf.2
    obtain ⟨c, cs, hc⟩ : ∃ c cs, encElem e = c :: cs := by
      cases henc : encElem e with
      | nil => exact absurd henc (encElem_ne_nil e)
      | cons c cs => exact ⟨c, cs, rfl⟩
    have hshape : pack (e :: t') = c :: (cs ++ pack t') := by
      simp [pack, hc]
    cases fuel with
    | zero =>
      exfalso
      rw [hshape] at hlen
      simp at hlen
    | succ f =>
      rw [hshape]
      simp only [unpackAux]
      have hpe : parseElem (c :: (cs ++ pack t')) = some (e, pack t') := by
        have hpp := parseElem_encElem hwfe (pack_headLt255 hwft)
        rw [hc] at hpp
        simpa using hpp
      rw [hpe]
      have hlen' : (pack t').length ≤ f := by
        rw [hshape] at hlen
        simp at hlen
        omega
      simp [ih hwft f hlen']

/-- tuple.Unpack recovers any packed tuple of int64-representable elements. -/
theorem tupleUnpack_pack (t : List TElem) (hwf : tupWf t = true) :
    tupleUnpack (pack t) = some t :=
  unpackAux_pack t hwf (pack t).length (Nat.le_refl _)

theorem pack_int_cons (i : Int) (t : List TElem) :
    pack (.int i :: t) = encInt i ++ pack t := rfl

theorem pack_injOn {a b : List TElem} (ha : tupWf a = true) (hb : tupWf b = true)
    (h : pack a = pack b) : a = b := by
  have h1 := tupleUnpack_pack a ha
  have h2 := tupleUnpack_pack b hb
  rw [h] at h1
  rw [h1] at h2
  exact Option.some_injective _ h2

/-! ## Codec order-preservation lemmas -/

theorem escLt {a b : List Nat} (h : keyLt a b = true) {r1 : List Nat} (r2 : List Nat)
    (hr1 : headLt255 r1 = true) :
    keyLt (escape a ++ 0 :: r1) (escape b ++ 0 :: r2) = true := by
  induction a generalizing b with
  | nil =>
    cases b with
    | nil => simp [keyLt_irrefl] at h
    | cons y bs =>
      by_cases hy : y = 0
      · subst hy
        simp only [escape, if_pos rfl, List.nil_append, List.cons_append]
        simp only [keyLt, Nat.lt_irrefl, if_false, if_pos rfl]
        cases r1 with
        | nil => rfl
        | cons c cs =>
          have hlt : c < 255 := by simpa [headLt255] using hr1
          exact keyLt_cons_of_lt hlt _ _
      · simp only [escape, if_neg hy, List.nil_append, List.cons_append]
        exact keyLt_cons_of_lt (Nat.pos_of_ne_zero hy) _ _
  | cons x as ih =>
    cases b with
    | nil => simp [keyLt] at h
    | cons y bs =>
      rcases Nat.lt_trichotomy x y with hxy | hxy | hxy
      · have hy : y ≠ 0 := by omega
        by_cases hx : x = 0
        · subst hx
          simp only [escape, if_pos rfl, if_neg hy, List.cons_append]
          exact keyLt_cons_of_lt hxy _ _
        · simp only [escape, if_neg hx, if_neg hy, List.cons_append]
          exact keyLt_cons_of_lt hxy _ _
      · subst hxy
        have h' : keyLt as bs = true := by simpa [keyLt] using h
        by_cases hx : x = 0
        · subst hx
          simp only [escape, if_pos rfl, List.cons_append]
          simp only [keyLt, Nat.lt_irrefl, if_false, if_pos rfl]
          exact ih h'
        · simp only [escape, if_neg hx, List.cons_append]
          simp only [keyLt, Nat.lt_irrefl, if_false, if_pos rfl]
          exact ih h'
      · exfalso
        have hasym := keyLt_asymm (keyLt_cons_of_lt hxy bs as)
        rw [h] at hasym
        exact Bool.noConfusion hasym

theorem wf_int_byteLen_le {n : Int} (h : TElem.wf (.int n) = true) :
    byteLen n.toNat ≤ 8 ∧ byteLen (-n).toNat ≤ 8 := by
  have hw := of_decide_eq_true h
  constructor
  · apply byteLen_le_of_lt
    have : n.toNat ≤ 2 ^ 63 := by omega
    calc n.toNat ≤ 2 ^ 63 := this
      _ < 256 ^ 8 := by norm_num
  · apply byteLen_le_of_lt
    have : (-n).toNat ≤ 2 ^ 63 := by omega
    calc (-n).toNat ≤ 2 ^ 63 := this
      _ < 256 ^ 8 := by norm_num

theorem encIntLt {a b : Int} (h : a < b)
    (ha : TElem.wf (.int a) = true) (hb : TElem.wf (.int b) = true)
    (r1 r2 : List Nat) :
    keyLt (encInt a ++ r1) (encInt b ++ r2) = true := by
  by_cases hbn : 0 ≤ b
  · by_cases han : 0 ≤ a
    · -- both nonnegative
      rw [encInt_nonneg han, encInt_nonneg hbn]
      have hmn : a.toNat < b.toNat := by omega
      have hle : byteLen a.toNat ≤ byteLen b.toNat := byteLen_mono (Nat.le_of_lt hmn)
      rcases Nat.lt_or_ge (byteLen a.toNat) (byteLen b.toNat) with hL | hL
      · exact keyLt_cons_of_lt (by omega) _ _
      · have hLeq : byteLen a.toNat = byteLen b.toNat := by omega
        simp only [List.cons_append]
        rw [hLeq]
        simp only [keyLt, Nat.lt_irrefl, if_false, if_pos rfl]
        apply keyLt_append_of_length_eq
        · rw [bePad_length, bePad_length]
        · exact bePad_lt hmn (hLeq ▸ byteLen_lt_pow b.toNat)
    · -- a negative, b nonnegative
      rw [encInt_neg han, encInt_nonneg hbn]
      have hL1 : 1 ≤ byteLen (-a).toNat := byteLen_pos (by omega)
      exact keyLt_cons_of_lt (by omega) _ _
  · -- b negative, hence a negative too
    have han : ¬ 0 ≤ a := by omega
    rw [encInt_neg han, encInt_neg hbn]
    have hma : 1 ≤ (-a).toNat := by omega
    have hmb : 1 ≤ (-b).toNat := by omega
    have hgt : (-b).toNat < (-a).toNat := by omega
    have hLa8 := (wf_int_byteLen_le ha).2
    have hLb8 := (wf_int_byteLen_le hb).2
    have hLb1 : 1 ≤ byteLen (-b).toNat := byteLen_pos (by omega)
    have hLge : byteLen (-b).toNat ≤ byteLen (-a).toNat := byteLen_mono (Nat.le_of_lt hgt)
    rcases Nat.lt_or_ge (byteLen (-b).toNat) (byteLen (-a).toNat) with hL | hL
    · exact keyLt_cons_of_lt (by omega) _ _
    · have hLeq : byteLen (-a).toNat = byteLen (-b).toNat := by omega
      simp only [List.cons_append]
      rw [hLeq]
      simp only [keyLt, Nat.lt_irrefl, if_false, if_pos rfl]
      have hmaLt : (-a).toNat < 256 ^ byteLen (-b).toNat := hLeq ▸ byteLen_lt_pow (-a).toNat
      apply keyLt_append_of_length_eq
      · rw [bePad_length, bePad_length]
      · exact bePad_lt (by omega) (by omega)

theorem encInt_shape {n : Int} (h : TElem.wf (.int n) = true) :
    ∃ c cs, encInt n = c :: cs ∧ 12 ≤ c ∧ c ≤ 28 := by
  have h8 := wf_int_byteLen_le h
  by_cases hn : 0 ≤ n
  · exact ⟨_, _, encInt_nonneg hn, by omega, by omega⟩
  · have hL1 : 1 ≤ byteLen (-n).toNat := byteLen_pos (by omega)
    exact ⟨_, _, encInt_neg hn, by omega, by omega⟩

theorem eltLtKey {e1 e2 : TElem} (h : eltLt e1 e2 = true)
    (h1 : TElem.wf e1 = true) (h2 : TElem.wf e2 = true)
    {r1 : List Nat} (r2 : List Nat) (hr1 : headLt255 r1 = true) :
    keyLt (encElem e1 ++ r1) (encElem e2 ++ r2) = true := by
  cases e1 with
  | bytes a =>
    cases e2 with
    | bytes b =>
      have hab : keyLt a b = true := by simpa [eltLt] using h
      show keyLt (1 :: ((escape a ++ [0]) ++ r1)) (1 :: ((escape b ++ [0]) ++ r2)) = true
      simp only [List.append_assoc, List.singleton_append]
      simp only [keyLt, Nat.lt_irrefl, if_false, if_pos rfl]
      exact escLt hab r2 hr1
    | str s => exact keyLt_cons_of_lt (by omega) _ _
    | int n =>
      obtain ⟨c, cs, hc, h12, _⟩ := encInt_shape h2
      show keyLt (1 :: ((escape a ++ [0]) ++ r1)) (encInt n ++ r2) = true
      rw [hc]
      exact keyLt_cons_of_lt (by omega) _ _
  | str a =>
    cases e2 with
    | bytes b => simp [eltLt] at h
    | str b =>
      have hab : keyLt a b = true := by simpa [eltLt] using h
      show keyLt (2 :: ((escape a ++ [0]) ++ r1)) (2 :: ((escape b ++ [0]) ++ r2)) = true
      simp only [List.append_assoc, List.singleton_append]
      simp only [keyLt, Nat.lt_irrefl, if_false, if_pos rfl]
      exact escLt hab r2 hr1
    | int n =>
      obtain ⟨c, cs, hc, h12, _⟩ := encInt_shape h2
      show keyLt (2 :: ((escape a ++ [0]) ++ r1)) (encInt n ++ r2) = true
      rw [hc]
      exact keyLt_cons_of_lt (by omega) _ _
  | int a =>
    cases e2 with
    | bytes b => simp [eltLt] at h
    | str b => simp [eltLt] at h
    | int b =>
      have hab : a < b := by simpa [eltLt] using h
      exact encIntLt hab h1 h2 r1 r2

theorem packLt {a b : List TElem} (h : tupLt a b = true)
    (ha : tupWf a = true) (hb : tupWf b = true) :
    keyLt (pack a) (pack b) = true := by
  induction a generalizing b with
  | nil =>
    cases b with
    | nil => simp [tupLt] at h
    | cons e bs =>
      obtain ⟨c, cs, hc⟩ : ∃ c cs, encElem e = c :: cs := by
        cases henc : encElem e with
        | nil => exact absurd henc (encElem_ne_nil e)
        | cons c cs => exact ⟨c, cs, rfl⟩
      show keyLt [] (encElem e ++ pack bs) = true
      rw [hc]
      rfl
  | cons e1 as ih =>
    cases b with
    | nil => simp [tupLt] at h
    | cons e2 bs =>
      have hwa1 : TElem.wf e1 = true := by
        simp only [tupWf, List.all_cons, Bool.and_eq_true] at ha
        exact ha.1
      have hwas : tupWf as = true := by
        simp only [tupWf, List.all_cons, Bool.and_eq_true] at ha
        exact ha.2
      have hwb1 : TElem.wf e2 = true := by
        simp only [tupWf, List.all_cons, Bool.and_eq_true] at hb
        exact hb.1
      have hwbs : tupWf bs = true := by
        simp only [tupWf, List.all_cons, Bool.and_eq_true] at hb
        exact hb.2
      simp only [tupLt, Bool.or_eq_true, Bool.and_eq_true, beq_iff_eq] at h
      rcases h with h | ⟨hEq, h⟩
      · exact eltLtKey h hwa1 hwb1 (pack bs) (pack_headLt255 hwas)
      · subst hEq
        show keyLt (encElem e1 ++ pack as) (encElem e1 ++ pack bs) = true
        rw [keyLt_append_left]
        exact ih h hwas hwbs

/-! ## The ordered transactional key-value store -/

/-- A store snapshot: association list of (key, value), kept strictly
ascending in keyLt.  This models the committed state of the OTKV. -/
abbrev Store := List (List Nat × List Nat)

/-- Well-formedness: keys strictly ascending (hence distinct). -/
def Store.Wf (s : Store) : Prop := s.Pairwise (fun a b => keyLt a.1 b.1 = true)

/-- Point read (Transaction.Get). -/
def Store.get : Store → List Nat → Option (List Nat)
  | [], _ => none
  | (k, v) :: rest, key => if k = key then some v else Store.get rest key

/-- Write (Transaction.Set): sorted insert or replace. -/
def Store.set : Store → List Nat → List Nat → Store
  | [], key, val => [(key, val)]
  | (k, v) :: rest, key, val =>
    if keyLt key k then (key, val) :: (k, v) :: rest
    else if key = k then (key, val) :: rest
    else (k, v) :: Store.set rest key val

/-- Delete (Transaction.Clear). -/
def Store.clear : Store → List Nat → Store
  | [], _ => []
  | (k, v) :: rest, key => if k = key then rest else (k, v) :: Store.clear rest key

/-- Membership of key k in the half-open byte range [b, e). -/
def inRange (b e k : List Nat) : Bool := !keyLt k b && keyLt k e

/-- Range read with limit (Transaction.GetRange with RangeOptions{Limit}),
ascending key order. -/
def Store.range (s : Store) (b e : List Nat) (limit : Nat) : List (List Nat × List Nat) :=
  (s.filter (fun kv => inRange b e kv.1)).take limit

/-- GetKey(fdb.LastLessThan e): the greatest existing key strictly below e,
or none when no key is below e (FDB resolves the selector to the empty
key then, which compares below every nonempty range start). -/
def Store.lastLessThan (s : Store) (e : List Nat) : Option (List Nat) :=
  ((s.filter (fun kv => keyLt kv.1 e)).map Prod.fst).getLast?

theorem Store.get_eq_some_of_mem {s : Store} (hwf : Store.Wf s)
    {k v : List Nat} (hmem : (k, v) ∈ s) : Store.get s k = some v := by
  induction s with
  | nil => cases hmem
  | cons kv rest ih =>
    rcases List.mem_cons.mp hmem with hmem' | hmem'
    · rw [← hmem']
      simp [Store.get]
    · obtain ⟨k0, v0⟩ := kv
      have hwf' : Store.Wf rest := (List.pairwise_cons.mp hwf).2
      have hk0 : keyLt k0 k = true := by
        simpa using (List.pairwise_cons.mp hwf).1 (k, v) hmem'
      have hne : k0 ≠ k := by
        intro hEq
        rw [hEq, keyLt_irrefl] at hk0
        exact Bool.noConfusion hk0
      simp only [Store.get, if_neg hne]
      exact ih hwf' hmem'

theorem Store.mem_of_get_eq_some {s : Store} {k v : List Nat}
    (h : Store.get s k = some v) : (k, v) ∈ s := by
  induction s with
  | nil => simp [Store.get] at h
  | cons kv rest ih =>
    obtain ⟨k0, v0⟩ := kv
    by_cases hk : k0 = k
    · subst hk
      have h' : some v0 = some v := by simpa [Store.get] using h
      have hv : v0 = v := Option.some.inj h'
      subst hv
      exact List.mem_cons_self _ _
    · simp only [Store.get, if_neg hk] at h
      exact List.mem_cons.mpr (Or.inr (ih h))

theorem Store.get_none_of_not_mem {s : Store} {k : List Nat}
    (h : ∀ v, (k, v) ∉ s) : Store.get s k = none := by
  induction s with
  | nil => rfl
  | cons kv rest ih =>
    obtain ⟨k0, v0⟩ := kv
    by_cases hk : k0 = k
    · subst hk
      exact absurd (List.mem_cons_self _ _) (h v0)
    · simp only [Store.get, if_neg hk]
      exact ih (fun v hv => h v (List.mem_cons_of_mem _ hv))

theorem Store.clear_of_get_none {s : Store} {k : List Nat}
    (h : Store.get s k = none) : Store.clear s k = s := by
  induction s with
  | nil => rfl
  | cons kv rest ih =>
    obtain ⟨k0, v0⟩ := kv
    by_cases hk : k0 = k
    · subst hk
      simp [Store.get] at h
    · simp only [Store.get, if_neg hk] at h
      simp only [Store.clear, if_neg hk]
      rw [ih h]

theorem Store.clear_sublist (s : Store) (k : List Nat) :
    List.Sublist (Store.clear s k) s := by
  induction s with
  | nil => simp [Store.clear]
  | cons kv rest ih =>
    obtain ⟨k0, v0⟩ := kv
    by_cases hk : k0 = k
    · simp only [Store.clear, if_pos hk]
      exact List.sublist_cons_self _ _
    · simp only [Store.clear, if_neg hk]
      exact List.Sublist.cons₂ _ ih

theorem Store.Wf_clear {s : Store} (hwf : Store.Wf s) (k : List Nat) :
    Store.Wf (Store.clear s k) :=
  List.Pairwise.sublist (Store.clear_sublist s k) hwf

theorem Store.mem_set {s : Store} {k v : List Nat} {x : List Nat × List Nat}
    (h : x ∈ Store.set s k v) : x = (k, v) ∨ x ∈ s := by
  induction s with
  | nil => simpa [Store.set] using h
  | cons kv rest ih =>
    obtain ⟨k0, v0⟩ := kv
    by_cases hlt : keyLt k k0
    · simp only [Store.set, if_pos hlt] at h
      rcases List.mem_cons.mp h with h' | h'
      · exact Or.inl h'
      · exact Or.inr h'
    · by_cases heq : k = k0
      · simp only [Store.set, if_neg hlt, if_pos heq] at h
        rcases List.mem_cons.mp h with h' | h'
        · exact Or.inl h'
        · exact Or.inr (List.mem_cons_of_mem _ h')
      · simp only [Store.set, if_neg hlt, if_neg heq] at h
        rcases List.mem_cons.mp h with h' | h'
        · exact Or.inr (List.mem_cons.mpr (Or.inl h'))
        · rcases ih h' with h'' | h''
          · exact Or.inl h''
          · exact Or.inr (List.mem_cons_of_mem _ h'')

theorem Store.Wf_set {s : Store} (hwf : Store.Wf s) (k v : List Nat) :
    Store.Wf (Store.set s k v) := by
  induction s with
  | nil => simp [Store.set, Store.Wf]
  | cons kv rest ih =>
    obtain ⟨k0, v0⟩ := kv
    have hhead := (List.pairwise_cons.mp hwf).1
    have hwf' : Store.Wf rest := (List.pairwise_cons.mp hwf).2
    by_cases hlt : keyLt k k0
    · simp only [Store.set, if_pos hlt]
      refine List.pairwise_cons.mpr ⟨?_, hwf⟩
      intro x hx
      rcases List.mem_cons.mp hx with hx' | hx'
      · rw [hx']; exact hlt
      · exact keyLt_trans hlt (by simpa using hhead x hx')
    · by_cases heq : k = k0
      · simp only [Store.set, if_neg hlt, if_pos heq]
        refine List.pairwise_cons.mpr ⟨?_, hwf'⟩
        intro x hx
        rw [heq]
        exact hhead x hx
      · simp only [Store.set, if_neg hlt, if_neg heq]
        refine List.pairwise_cons.mpr ⟨?_, ih hwf'⟩
        intro x hx
        rcases Store.mem_set hx with hx' | hx'
        · rw [hx']
          rcases keyLt_total (by simpa using hlt) with h' | h'
          · exact absurd h' heq
          · exact h'
        · exact hhead x hx'

theorem Store.set_perm {s : Store} (hwf : Store.Wf s) (k v : List Nat) :
    List.Perm (Store.set s k v) ((k, v) :: Store.clear s k) := by
  induction s with
  | nil => simp [Store.set, Store.clear]
  | cons kv rest ih =>
    obtain ⟨k0, v0⟩ := kv
    have hhead := (List.pairwise_cons.mp hwf).1
    have hwf' : Store.Wf rest := (List.pairwise_cons.mp hwf).2
    by_cases hlt : keyLt k k0
    · have hne : k0 ≠ k := by
        intro hEq
        rw [hEq, keyLt_irrefl] at hlt
        exact Bool.noConfusion hlt
      have hnotmem : ∀ v', (k, v') ∉ rest := by
        intro v' hv'
        have hk0 : keyLt k0 k = true := by simpa using hhead (k, v') hv'
        have := keyLt_trans hlt hk0
        rw [keyLt_irrefl] at this
        exact Bool.noConfusion this
      have hclr : Store.clear rest k = rest :=
        Store.clear_of_get_none (Store.get_none_of_not_mem hnotmem)
      simp only [Store.set, if_pos hlt, Store.clear, if_neg hne, hclr]
      exact List.Perm.refl _
    · by_cases heq : k = k0
      · have hne : k0 = k := heq.symm
        simp only [Store.set, if_neg hlt, if_pos heq, Store.clear, if_pos hne]
        exact List.Perm.refl _
      · have hne : k0 ≠ k := fun hEq => heq hEq.symm
        simp only [Store.set, if_neg hlt, if_neg heq, Store.clear, if_neg hne]
        refine List.Perm.trans (List.Perm.cons _ (ih hwf')) ?_
        exact List.Perm.swap _ _ _

theorem Store.get_set_self (s : Store) (k v : List Nat) :
    Store.get (Store.set s k v) k = some v := by
  induction s with
  | nil => simp [Store.set, Store.get]
  | cons kv rest ih =>
    obtain ⟨k0, v0⟩ := kv
    by_cases hlt : keyLt k k0
    · simp [Store.set, hlt, Store.get]
    · by_cases heq : k = k0
      · subst heq
        simp [Store.set, keyLt_irrefl, Store.get]
      · have hne : k0 ≠ k := fun hEq => heq hEq.symm
        simp only [Store.set, if_neg hlt, if_neg heq, Store.get, if_neg hne]
        exact ih

theorem Store.get_set_ne (s : Store) {k k' : List Nat} (v : List Nat) (h : k' ≠ k) :
    Store.get (Store.set s k v) k' = Store.get s k' := by
  induction s with
  | nil => simp [Store.set, Store.get, Ne.symm h]
  | cons kv rest ih =>
    obtain ⟨k0, v0⟩ := kv
    by_cases hlt : keyLt k k0
    · simp only [Store.set, if_pos hlt, Store.get, if_neg (Ne.symm h)]
    · by_cases heq : k = k0
      · subst heq
        have hset : Store.set ((k, v0) :: rest) k v = (k, v) :: rest := by
          simp [Store.set, keyLt_irrefl]
        rw [hset]
        simp [Store.get, Ne.symm h]
      · simp only [Store.set, if_neg hlt, if_neg heq, Store.get]
        by_cases hk0 : k0 = k'
        · simp [hk0]
        · simp only [if_neg hk0]
          exact ih

theorem Store.get_clear_self {s : Store} (hwf : Store.Wf s) (k : List Nat) :
    Store.get (Store.clear s k) k = none := by
  induction s with
  | nil => rfl
  | cons kv rest ih =>
    obtain ⟨k0, v0⟩ := kv
    have hhead := (List.pairwise_cons.mp hwf).1
    have hwf' : Store.Wf rest := (List.pairwise_cons.mp hwf).2
    by_cases hk : k0 = k
    · subst hk
      simp only [Store.clear, if_pos rfl]
      apply Store.get_none_of_not_mem
      intro v' hv'
      have := hhead (k0, v') hv'
      rw [keyLt_irrefl] at this
      exact Bool.noConfusion this
    · simp only [Store.clear, if_neg hk, Store.get, if_neg hk]
      exact ih hwf'

theorem Store.get_clear_ne (s : Store) {k k' : List Nat} (h : k' ≠ k) :
    Store.get (Store.clear s k) k' = Store.get s k' := by
  induction s with
  | nil => rfl
  | cons kv rest ih =>
    obtain ⟨k0, v0⟩ := kv
    by_cases hk : k0 = k
    · subst hk
      have hclr : Store.clear ((k0, v0) :: rest) k0 = rest := by
        simp [Store.clear]
      rw [hclr]
      simp [Store.get, Ne.symm h]
    · simp only [Store.clear, if_neg hk, Store.get]
      by_cases hk0 : k0 = k'
      · simp [hk0]
      · simp only [if_neg hk0]
        exact ih

theorem Store.mem_range {s : Store} {b e : List Nat} {n : Nat}
    {kv : List Nat × List Nat} (h : kv ∈ Store.range s b e n) :
    kv ∈ s ∧ inRange b e kv.1 = true := by
  have h1 : kv ∈ s.filter (fun kv => inRange b e kv.1) := List.mem_of_mem_take h
  exact ⟨(List.mem_filter.mp h1).1, (List.mem_filter.mp h1).2⟩

theorem Store.range_sublist (s : Store) (b e : List Nat) (n : Nat) :
    List.Sublist (Store.range s b e n) s :=
  List.Sublist.trans (List.take_sublist _ _) (List.filter_sublist _)

theorem Store.range_pairwise {s : Store} (hwf : Store.Wf s) (b e : List Nat) (n : Nat) :
    (Store.range s b e n).Pairwise (fun a b => keyLt a.1 b.1 = true) :=
  List.Pairwise.sublist (Store.range_sublist s b e n) hwf

theorem Store.range_eq_nil_iff (s : Store) (b e : List Nat) {n : Nat} (hn : 0 < n) :
    Store.range s b e n = [] ↔ ∀ kv ∈ s, inRange b e kv.1 = false := by
  constructor
  · intro h kv hkv
    by_contra hc
    have hmem : kv ∈ s.filter (fun kv => inRange b e kv.1) :=
      List.mem_filter.mpr ⟨hkv, by simpa using hc⟩
    have : s.filter (fun kv => inRange b e kv.1) ≠ [] := by
      intro hnil
      rw [hnil] at hmem
      cases hmem
    rcases List.exists_cons_of_ne_nil this with ⟨hd, tl, hcons⟩
    have : Store.range s b e n ≠ [] := by
      rw [Store.range, hcons]
      cases n with
      | zero => omega
      | succ m => simp
    exact this h
  · intro h
    have : s.filter (fun kv => inRange b e kv.1) = [] := by
      apply List.filter_eq_nil_iff.mpr
      intro kv hkv
      simp [h kv hkv]
    rw [Store.range, this]
    simp

theorem getLast?_eq_of_pairwise_max {l : List (List Nat)}
    (hp : l.Pairwise (fun a b => keyLt a b = true)) {x : List Nat} (hx : x ∈ l)
    (hmax : ∀ y ∈ l, y = x ∨ keyLt y x = true) : l.getLast? = some x := by
  induction l with
  | nil => cases hx
  | cons a l' ih =>
    cases l' with
    | nil =>
      rcases List.mem_cons.mp hx with h | h
      · subst h
        simp
      · cases h
    | cons b l'' =>
      have hab : keyLt a b = true := by
        simpa using (List.pairwise_cons.mp hp).1 b (List.mem_cons_self _ _)
      have hxmem : x ∈ b :: l'' := by
        rcases List.mem_cons.mp hx with h | h
        · exfalso
          subst h
          rcases hmax b (List.mem_cons_of_mem _ (List.mem_cons_self _ _)) with h' | h'
          · subst h'
            rw [keyLt_irrefl] at hab
            exact Bool.noConfusion hab
          · have := keyLt_asymm hab
            rw [h'] at this
            exact Bool.noConfusion this
        · exact h
      rw [List.getLast?_cons_cons]
      exact ih (List.pairwise_cons.mp hp).2 hxmem
        (fun y hy => hmax y (List.mem_cons_of_mem _ hy))

/-! ## Queue layer (package queue) -/

/-- Root subspace prefix of the modelled queue (New is called on a root
subspace; we fix the root at the empty prefix). -/
def rootPfx : List Nat := []

/-- conflictedPop namespace prefix: sub.Sub("pop"). -/
def popPfx : List Nat := rootPfx ++ encElem (.str [112, 111, 112])

/-- conflictedItem namespace prefix: sub.Sub("conflict"). -/
def conflictPfx : List Nat :=
  rootPfx ++ encElem (.str [99, 111, 110, 102, 108, 105, 99, 116])

/-- queueItem namespace prefix: sub.Sub("item"). -/
def itemPfx : List Nat := rootPfx ++ encElem (.str [105, 116, 101, 109])

/-- Range start of a subspace (FDBRangeKeys begin = prefix ++ 0x00). -/
def rangeLo (pfx : List Nat) : List Nat := pfx ++ [0]

/-- Range end of a subspace (FDBRangeKeys end = prefix ++ 0xFF). -/
def rangeHi (pfx : List Nat) : List Nat := pfx ++ [255]

/-- encodeValue: payloads are stored tuple-wrapped. -/
def encodeValue (v : List Nat) : List Nat := pack [.bytes v]

/-- decodeValue: tuple.Unpack and the type assertion t[0].([]byte); a
failure is a panic in the Go code, modelled as none. -/
def decodeValue (val : List Nat) : Option (List Nat) :=
  match tupleUnpack val with
  | some (.bytes b :: _) => some b
  | _ => none

/-- GetNextIndex (queue.go lines 79-94): snapshot-read the last existing
key strictly below the end of the namespace range; return 0 when it sorts
below the range start (namespace empty), else the decoded leading int64
component plus one.  none models the unpack/type-assertion panic. -/
def GetNextIndex (s : Store) (pfx : List Nat) : Option Int :=
  match Store.lastLessThan s (rangeHi pfx) with
  | none => some 0
  | some k =>
    if keyLt k (rangeLo pfx) then some 0
    else
      match tupleUnpack (k.drop pfx.length) with
      | some (.int i :: _) => some (i + 1)
      | _ => none

/-- The key of an item record: (index, random suffix) in the item
namespace. -/
def itemKey (i : Int) (r : List Nat) : List Nat := itemPfx ++ pack [.int i, .bytes r]

/-- pushAt: write the payload under (index, random 20-byte suffix). -/
def pushAt (s : Store) (v : List Nat) (index : Int) (r : List Nat) : Store :=
  Store.set s (itemKey index r) (encodeValue v)

/-- Push: assign the next queue index by snapshot read, then insert, in
one transaction (r is the fresh 20-byte random suffix). -/
def Push (s : Store) (v r : List Nat) : Option Store :=
  match GetNextIndex s itemPfx with
  | some index => some (pushAt s v index r)
  | none => none

/-- getFirstItem: ascending range read of the item namespace, limit 1. -/
def getFirstItem (s : Store) : Option (List Nat × List Nat) :=
  (Store.range s (rangeLo itemPfx) (rangeHi itemPfx) 1).head?

/-- Empty: true iff the limit-1 item range read returns nothing (the name
is qualified because Lean reserves the bare name Empty). -/
def Queue.Empty (s : Store) : Bool := (getFirstItem s).isNone

/-- popSimple: read the first item, clear its key in the same transaction,
and hand back the raw (still tuple-encoded) value. -/
def popSimple (s : Store) : Store × Option (List Nat) :=
  match getFirstItem s with
  | some (k, v) => (Store.clear s k, some v)
  | none => (s, none)

/-- Pop in simple mode: one transaction running popSimple and decodeValue;
a decode panic aborts the transaction before commit, so the store is
unchanged then. -/
def PopSimpleMode (s : Store) : Store × Option (List Nat) :=
  match popSimple s with
  | (s', some raw) =>
    match decodeValue raw with
    | some v => (s', some v)
    | none => (s, none)
  | (_, none) => (s, none)

/-- conflictedItemKey: the result-record slot for a waiter's random id. -/
def conflictedItemKey (r : List Nat) : List Nat := conflictPfx ++ pack [.bytes r]

/-- The random id embedded in a waiter key: conflictedPop.Unpack(key) and
the type assertion t[1].([]byte); none models the panic. -/
def ridOfPop (k : List Nat) : Option (List Nat) :=
  match tupleUnpack (k.drop popPfx.length) with
  | some (_ :: .bytes r :: _) => some r
  | _ => none

/-- One matched pair of the sweep, applied in read order: write the item's
value into the waiter's result slot, clear the waiter record, clear the
item record. -/
def applyMatched :
    Store → List ((List Nat × List Nat) × (List Nat × List Nat)) → Option Store
  | s, [] => some s
  | s, ((popKey, _), (itemKey, itemVal)) :: rest =>
    match ridOfPop popKey with
    | some rid =>
      applyMatched
        (Store.clear (Store.clear (Store.set s (conflictedItemKey rid) itemVal) popKey)
          itemKey) rest
    | none => none

/-- Excess waiters beyond the matched count are cleared without a result. -/
def clearPops : Store → List (List Nat × List Nat) → Store
  | s, [] => s
  | s, (popKey, _) :: rest => clearPops (Store.clear s popKey) rest

/-- fulfilConflictedPops (queue.go lines 284-323): in one transaction, read
up to 100 waiter records and up to 100 item records in ascending key
order; for each index-matched pair write the item's value into the result
slot keyed by the waiter's random id and clear both records; clear every
excess waiter; return whether fewer than 100 waiters were read.  none
models the panic on an undecodable matched waiter key (the transaction
then aborts with no effect). -/
def fulfilConflictedPops (s : Store) : Option (Store × Bool) :=
  let pops := Store.range s (rangeLo popPfx) (rangeHi popPfx) 100
  let items := Store.range s (rangeLo itemPfx) (rangeHi itemPfx) 100
  match applyMatched s (pops.zip items) with
  | some s1 => some (clearPops s1 (pops.drop items.length), decide (pops.length < 100))
  | none => none

/-! ## High-contention pop: transactions, attempt phase, waiting phase -/

/-- A transaction write buffer in operation order: Set k v is (k, some v),
Clear k is (k, none). -/
abbrev TxnBuf := List (List Nat × Option (List Nat))

/-- Apply a buffer to the committed store (what a successful Commit does;
reads inside the transaction also see the store through this overlay). -/
def applyBuf (s : Store) : TxnBuf → Store
  | [] => s
  | (k, some v) :: rest => applyBuf (Store.set s k v) rest
  | (k, none) :: rest => applyBuf (Store.clear s k) rest

/-- addConflictedPop (queue.go lines 156-167) inside a transaction: read
the next waiter index (snapshot reads see the transaction's own writes);
when the namespace is empty (index 0) and not forced, register nothing
and return nil; else buffer an empty-valued waiter record at
(index, randId) and return its key.  none models the GetOrPanic/unpack
panic. -/
def addConflictedPopTx (s : Store) (buf : TxnBuf) (r : List Nat) (forced : Bool) :
    Option (TxnBuf × Option (List Nat)) :=
  match GetNextIndex (applyBuf s buf) popPfx with
  | none => none
  | some index =>
    if index = 0 ∧ ¬ forced then some (buf, none)
    else some (buf ++ [(popPfx ++ pack [.int index, .bytes r], some [])],
      some (popPfx ++ pack [.int index, .bytes r]))

/-- popSimple inside an open transaction: read the first item through the
write buffer, buffer the clear of its key. -/
def popSimpleTx (s : Store) (buf : TxnBuf) : TxnBuf × Option (List Nat) :=
  match getFirstItem (applyBuf s buf) with
  | some (k, v) => (buf ++ [(k, none)], some v)
  | none => (buf, none)

/-- Outcome of a Commit as decided by the store: clean, invalidated by a
concurrent transaction (error 1020), or any other (fatal) error. -/
inductive CommitRes
  | ok
  | conflict
  | fatal
deriving DecidableEq, Repr

/-- Result of the attempting phase of popHighContention. -/
inductive AttemptOutcome
  | done (v : Option (List Nat))
  | fatal
  | waiting (waitKey : List Nat)
deriving DecidableEq, Repr

/-- The attempting phase of popHighContention (queue.go lines 186-230),
modelled faithfully to the Go control flow: register non-forced (rA); if
no waiter record was written, run popSimple in the same transaction and
commit (outcome c1) - a clean commit returns, a non-conflict error
panics, a conflict falls through.  Line 213 then issues tr.Commit() on
the SAME transaction: for the registered path this is the registration
commit (outcome c2, its error only printed); for the conflicted path the
transaction has already failed, so the re-commit applies nothing.  Line
218 buffers the forced registration (rF) into that dead transaction and
line 230 (tr.Reset()) discards the buffer before the waiting loop, so the
forced waiter record is never committed. -/
def hcAttempt (s : Store) (rA rF : List Nat) (c1 c2 : CommitRes) :
    Option (AttemptOutcome × Store) :=
  match addConflictedPopTx s [] rA false with
  | none => none
  | some (buf1, some wk) =>
    some (.waiting wk, if c2 = .ok then applyBuf s buf1 else s)
  | some (buf1, none) =>
    match popSimpleTx s buf1, c1 with
    | (buf2, v), .ok => some (.done v, applyBuf s buf2)
    | (_, _), .fatal => some (.fatal, s)
    | (buf2, _), .conflict =>
      match addConflictedPopTx s buf2 rF true with
      | none => none
      | some (_, wk2) => some (.waiting (wk2.getD []), s)

/-- Result of one iteration of the waiting-phase check. -/
inductive CheckOutcome
  | sleeps
  | notFound
  | returns (v : Option (List Nat))
deriving DecidableEq, Repr

/-- One iteration of the waiting-phase check (queue.go lines 236-258).
The Go code issues two asynchronous reads and branches on
Future.IsReady() - whether the future has RESOLVED yet (wReady, rReady),
not whether the key is present; its own comment says "If waitKey is
present".  On the final path it clears the result key, commits ignoring
the commit error (BlockUntilReady, outcome cOk), and returns whatever the
result read produced (nil when the slot is absent). -/
def hcCheckCode (s : Store) (wReady rReady cOk : Bool)
    (_waitKey resultKey : List Nat) : CheckOutcome × Store :=
  if wReady then (.sleeps, s)
  else if !rReady then (.notFound, s)
  else (.returns (Store.get s resultKey), if cOk then Store.clear s resultKey else s)

/-- The waiting-phase check as the specification words it: branch on the
PRESENCE of the waiter record and of the result slot (used to compare the
code's readiness-based branching against the claim). -/
def hcCheckClaim (s : Store) (waitKey resultKey : List Nat) : CheckOutcome × Store :=
  if (Store.get s waitKey).isSome then (.sleeps, s)
  else
    match Store.get s resultKey with
    | none => (.notFound, s)
    | some v => (.returns (some v), Store.clear s resultKey)

/-- Backoff update in centiseconds (initial 1 = 0.01 s): doubled, capped
at 1.0 s. -/
def nextBackoffCs (b : Nat) : Nat := min (2 * b) 100

/-- The slept whole seconds: time.Duration(backoff) converts the float64
seconds to an integer tick count, truncating toward zero, and the result
is multiplied by time.Second - every sub-second backoff sleeps 0. -/
def sleepSeconds (backoffCs : Nat) : Nat := backoffCs / 100

/-- Result of the Go waiting-loop header
for done := queue.fulfilConflictedPops(db); !done; { } . -/
inductive SweepLoopRes
  | proceeds (s : Store)
  | spins
  | panics
deriving Repr

/-- The loop evaluates the sweep ONCE in its init statement; the condition
re-tests the same variable and the body is empty, so when the first sweep
reports the backlog not drained the loop never terminates (spins). -/
def hcSweepLoopCode (s : Store) : SweepLoopRes :=
  match fulfilConflictedPops s with
  | some (s', true) => .proceeds s'
  | some (_, false) => .spins
  | none => .panics

/-- The sweep loop as the claim states it: re-invoke the sweep after every
not-drained report, stopping as soon as one invocation returns true (fuel
bounds the iterations). -/
def sweepUntilDrained : Nat → Store → Option Store
  | 0, _ => none
  | fuel + 1, s =>
    match fulfilConflictedPops s with
    | some (s', true) => some s'
    | some (s', false) => sweepUntilDrained fuel s'
    | none => none

/-! ## Global protocol traces (for the no-duplication invariant) -/

/-- One committed transaction of some client of the queue.  Waiting-phase
iterations whose futures made the code sleep or give up commit nothing
and change nothing, so only the effective final check (consume) appears
as a step. -/
inductive QStep
  | push (v r : List Nat)
  | popSimple
  | reg (r : List Nat) (forced : Bool)
  | sweep
  | consume (r : List Nat) (commitOk : Bool)

/-- Global protocol state: the committed store, the raw values handed to
poppers so far, and the random ids whose final check already ran. -/
structure QState where
  store : Store
  delivered : List (List Nat)
  consumed : List (List Nat)

def initQState : QState := ⟨[], [], []⟩

/-- Effect of one committed step.  A modelled panic (none) aborts that
transaction with no effect on the store and delivers nothing; the other
clients continue. -/
def stepRun (st : QState) : QStep → QState
  | .push v r =>
    match Push st.store v r with
    | some s' => { st with store := s' }
    | none => st
  | .popSimple =>
    match popSimple st.store with
    | (s', some raw) =>
      if (decodeValue raw).isSome then
        { st with store := s', delivered := st.delivered ++ [raw] }
      else st
    | (_, none) => st
  | .reg r forced =>
    match addConflictedPopTx st.store [] r forced with
    | some (buf, _) => { st with store := applyBuf st.store buf }
    | none => st
  | .sweep =>
    match fulfilConflictedPops st.store with
    | some (s', _) => { st with store := s' }
    | none => st
  | .consume r commitOk =>
    match Store.get st.store (conflictedItemKey r) with
    | some v =>
      { store := if commitOk then Store.clear st.store (conflictedItemKey r) else st.store,
        delivered := st.delivered ++ [v],
        consumed := st.consumed ++ [r] }
    | none =>
      { st with consumed := st.consumed ++ [r] }

def runTrace (steps : List QStep) : QState := steps.foldl stepRun initQState

/-- The payloads pushed along a trace, in order. -/
def pushedVals : List QStep → List (List Nat)
  | [] => []
  | .push v _ :: rest => v :: pushedVals rest
  | _ :: rest => pushedVals rest

/-- The random ids of the final checks along a trace, in order. -/
def consumeIds : List QStep → List (List Nat)
  | [] => []
  | .consume r _ :: rest => r :: consumeIds rest
  | _ :: rest => consumeIds rest

/-- Is k an item-namespace key? -/
def isItemKey (k : List Nat) : Bool := itemPfx.isPrefixOf k

/-- The id r with k = conflictedItemKey r, if any. -/
def slotRid (k : List Nat) : Option (List Nat) :=
  if conflictPfx.isPrefixOf k then
    match tupleUnpack (k.drop conflictPfx.length) with
    | some [TElem.bytes r] => if k = conflictedItemKey r then some r else none
    | _ => none
  else none

/-- Is k a result slot whose popper has not yet run its final check? -/
def liveSlot (consumed : List (List Nat)) (k : List Nat) : Bool :=
  match slotRid k with
  | some r => !(consumed.contains r)
  | none => false

/-- Occurrences of the value v at keys satisfying P. -/
def countVal (s : Store) (P : List Nat → Bool) (v : List Nat) : Nat :=
  (s.filter (fun kv => P kv.1 && decide (kv.2 = v))).length

/-- The linear resource count of a raw value: copies in the item
namespace, copies in not-yet-checked result slots, copies delivered. -/
def totalCount (st : QState) (v : List Nat) : Nat :=
  countVal st.store isItemKey v + countVal st.store (liveSlot st.consumed) v
    + st.delivered.count v

/-! ## Supporting lemmas for the queue theorems -/

theorem QueueEmpty_true_iff (s : Store) :
    Queue.Empty s = true ↔
      ∀ kv ∈ s, inRange (rangeLo itemPfx) (rangeHi itemPfx) kv.1 = false := by
  rw [Queue.Empty, getFirstItem]
  rw [Option.isNone_iff_eq_none]
  rw [List.head?_eq_none_iff]
  exact Store.range_eq_nil_iff s _ _ (by decide)

/-- A key of the shape prefix ++ pack (int i :: rest) lies in the
subspace range [prefix ++ 0x00, prefix ++ 0xFF) for int64 i. -/
theorem inRange_packKey (pfx : List Nat) {i : Int} (hwf : TElem.wf (.int i) = true)
    (rest : List TElem) :
    inRange (rangeLo pfx) (rangeHi pfx) (pfx ++ pack (.int i :: rest)) = true := by
  obtain ⟨c, cs, hc, h12, h28⟩ := encInt_shape hwf
  have hshape : pack (.int i :: rest) = c :: (cs ++ pack rest) := by
    simp [pack, encElem, hc]
  simp only [inRange, rangeLo, rangeHi, hshape, keyLt_append_left]
  have hc0 : ¬ (c < 0) := by omega
  have hc0' : c ≠ 0 := by omega
  have h1 : keyLt (c :: (cs ++ pack rest)) [0] = false := by
    simp [keyLt, hc0, hc0']
  have h2 : keyLt (c :: (cs ++ pack rest)) [255] = true :=
    keyLt_cons_of_lt (by omega) _ _
  simp [h1, h2]

/-- C8: for every store state, Empty returns true iff the item-record
range holds zero keys; and after a successful Push (whose assigned index
is int64-representable) and before any pop of that item, Empty is
false. -/
theorem C8_empty_iff_no_item (s : Store) :
    (Queue.Empty s = true ↔
      ∀ kv ∈ s, inRange (rangeLo itemPfx) (rangeHi itemPfx) kv.1 = false)
    ∧ (∀ v r i s', GetNextIndex s itemPfx = some i → TElem.wf (.int i) = true →
        Push s v r = some s' → Queue.Empty s' = false) := by
  constructor
  · exact QueueEmpty_true_iff s
  · intro v r i s' hidx hwf hpush
    rw [Push, hidx] at hpush
    have hs' : s' = pushAt s v i r := (Option.some_inj.mp hpush).symm
    subst hs'
    rcases hE : Queue.Empty (pushAt s v i r) with _ | _
    · rfl
    · exfalso
      have hall := (QueueEmpty_true_iff _).mp hE
      have hget : Store.get (pushAt s v i r) (itemPfx ++ pack [.int i, .bytes r])
          = some (encodeValue v) := Store.get_set_self s _ _
      have hmem := Store.mem_of_get_eq_some hget
      have := hall _ hmem
      rw [inRange_packKey itemPfx hwf [.bytes r]] at this
      exact Bool.noConfusion this

theorem C8_empty_witness :
    Queue.Empty (pushAt [] [1] 0 [2]) = false :=
  (C8_empty_iff_no_item []).2 [1] [2] 0 (pushAt [] [1] 0 [2]) (by decide) (by decide)
    (by decide)

theorem mem_of_getLast?_eq_some {l : List (List Nat)} {a : List Nat}
    (h : l.getLast? = some a) : a ∈ l := by
  obtain ⟨hne, hEq⟩ := List.mem_getLast?_eq_getLast (show a ∈ l.getLast? from h)
  rw [hEq]
  exact List.getLast_mem hne

instance storeWfDecidable (s : Store) : Decidable (Store.Wf s) :=
  inferInstanceAs
    (Decidable (List.Pairwise (fun a b : List Nat × List Nat => keyLt a.1 b.1 = true) s))

theorem lastLessThan_spec {s : Store} (hwf : Store.Wf s) {e k : List Nat}
    (hmem : ∃ v, (k, v) ∈ s) (hlt : keyLt k e = true)
    (hmax : ∀ kv ∈ s, keyLt kv.1 e = true → kv.1 = k ∨ keyLt kv.1 k = true) :
    Store.lastLessThan s e = some k := by
  obtain ⟨v, hv⟩ := hmem
  rw [Store.lastLessThan]
  apply getLast?_eq_of_pairwise_max
  · exact List.pairwise_map.mpr
      (List.Pairwise.sublist (List.filter_sublist s) hwf)
  · exact List.mem_map.mpr
      ⟨(k, v), List.mem_filter.mpr ⟨hv, by simpa using hlt⟩, rfl⟩
  · intro y hy
    obtain ⟨kv, hkvf, hfst⟩ := List.mem_map.mp hy
    have hkvs := (List.mem_filter.mp hkvf).1
    have hklt : keyLt kv.1 e = true := by
      simpa using (List.mem_filter.mp hkvf).2
    rcases hmax kv hkvs hklt with h | h
    · exact Or.inl (by rw [← hfst, h])
    · exact Or.inr (by rw [← hfst]; exact h)

theorem getNextIndex_eq_of_max {s : Store} (hwf : Store.Wf s) (pfx : List Nat)
    {k v : List Nat} {i : Int} {rest : List TElem}
    (hmem : (k, v) ∈ s)
    (hin : inRange (rangeLo pfx) (rangeHi pfx) k = true)
    (hmax : ∀ kv ∈ s, keyLt kv.1 (rangeHi pfx) = true → kv.1 = k ∨ keyLt kv.1 k = true)
    (hdec : tupleUnpack (k.drop pfx.length) = some (.int i :: rest)) :
    GetNextIndex s pfx = some (i + 1) := by
  have hin' := hin
  simp only [inRange] at hin'
  have hhi : keyLt k (rangeHi pfx) = true := by
    rcases hb : keyLt k (rangeHi pfx) with _ | _
    · rw [hb] at hin'; simp at hin'
    · rfl
  have hlo : keyLt k (rangeLo pfx) = false := by
    rcases hb : keyLt k (rangeLo pfx) with _ | _
    · rfl
    · rw [hb] at hin'; simp at hin'
  have hll : Store.lastLessThan s (rangeHi pfx) = some k :=
    lastLessThan_spec hwf ⟨v, hmem⟩ hhi hmax
  rw [GetNextIndex, hll]
  simp [hlo, hdec]

/-- C6: for every store and namespace, GetNextIndex returns 0 when the
namespace contains no key, and otherwise the decoded leading integer of
the last existing key strictly below the end of the namespace range,
plus one. -/
theorem C6_get_next_index (s : Store) (pfx : List Nat) (hwf : Store.Wf s) :
    ((∀ kv ∈ s, inRange (rangeLo pfx) (rangeHi pfx) kv.1 = false) →
      GetNextIndex s pfx = some 0)
    ∧ (∀ k v i rest,
        (k, v) ∈ s →
        inRange (rangeLo pfx) (rangeHi pfx) k = true →
        (∀ kv ∈ s, keyLt kv.1 (rangeHi pfx) = true → kv.1 = k ∨ keyLt kv.1 k = true) →
        tupleUnpack (k.drop pfx.length) = some (.int i :: rest) →
        GetNextIndex s pfx = some (i + 1)) := by
  constructor
  · intro hnone
    rw [GetNextIndex]
    cases hll : Store.lastLessThan s (rangeHi pfx) with
    | none => rfl
    | some k =>
      rw [Store.lastLessThan] at hll
      have hkmem : k ∈ (s.filter (fun kv => keyLt kv.1 (rangeHi pfx))).map Prod.fst :=
        mem_of_getLast?_eq_some hll
      obtain ⟨kv, hkvf, hfst⟩ := List.mem_map.mp hkmem
      have hkvs := (List.mem_filter.mp hkvf).1
      have hklt : keyLt kv.1 (rangeHi pfx) = true := by
        simpa using (List.mem_filter.mp hkvf).2
      have hnr := hnone kv hkvs
      have hlo : keyLt kv.1 (rangeLo pfx) = true := by
        rcases hb : keyLt kv.1 (rangeLo pfx) with _ | _
        · rw [inRange, hb, hklt] at hnr
          simp at hnr
        · rfl
      rw [hfst] at hlo
      simp [hlo]
  · intro k v i rest hmem hin hmax hdec
    exact getNextIndex_eq_of_max hwf pfx hmem hin hmax hdec

theorem C6_witness :
    GetNextIndex [(itemPfx ++ pack [.int 4, .bytes [7]], encodeValue [9])] itemPfx
      = some 5 :=
  (C6_get_next_index [(itemPfx ++ pack [.int 4, .bytes [7]], encodeValue [9])] itemPfx
      (by decide)).2
    (itemPfx ++ pack [.int 4, .bytes [7]]) (encodeValue [9]) 4 [.bytes [7]]
    (by decide) (by decide) (by decide) (by decide)

/-- C10: when the high-contention Pop's final check takes the give-up
path - the waiter record is gone and the result slot absent - it reports
the not-found outcome without committing anything, and whatever the
readiness of the two futures, that check leaves the store unchanged. -/
theorem C10_giveup_leaves_store (s : Store) (wReady rReady cOk : Bool)
    (wk rk : List Nat) (_hw : Store.get s wk = none) (hr : Store.get s rk = none) :
    (hcCheckCode s false false cOk wk rk).1 = .notFound
    ∧ (hcCheckCode s wReady rReady cOk wk rk).2 = s := by
  refine ⟨rfl, ?_⟩
  cases wReady
  · cases rReady
    · rfl
    · show (if cOk then Store.clear s rk else s) = s
      cases cOk
      · rfl
      · show Store.clear s rk = s
        exact Store.clear_of_get_none hr
  · rfl

theorem C10_witness :
    (hcCheckCode [([5], [1])] false false true [9] [7]).1 = .notFound
    ∧ (hcCheckCode [([5], [1])] true true true [9] [7]).2 = [([5], [1])] :=
  ⟨(C10_giveup_leaves_store [([5], [1])] false false true [9] [7]
      (by decide) (by decide)).1,
   (C10_giveup_leaves_store [([5], [1])] true true true [9] [7]
      (by decide) (by decide)).2⟩

/-! ## C5, C4, C3: the waiting-phase and attempt-phase code bugs -/

/-- C5 (code bug): with the waiter record ABSENT and the result slot
PRESENT, a check iteration whose waitKey future happens to be resolved
sleeps instead of returning the payload: the code branches on
Future.IsReady (timing), not on key presence as the claim states, and
time.Duration truncates every sub-second backoff to a zero sleep. -/
theorem C5_check_branches_on_readiness :
    Store.get [(conflictedItemKey [3], encodeValue [65])]
        (popPfx ++ pack [.int 0, .bytes [3]]) = none
    ∧ Store.get [(conflictedItemKey [3], encodeValue [65])] (conflictedItemKey [3])
        = some (encodeValue [65])
    ∧ hcCheckCode [(conflictedItemKey [3], encodeValue [65])] true true true
        (popPfx ++ pack [.int 0, .bytes [3]]) (conflictedItemKey [3])
        = (.sleeps, [(conflictedItemKey [3], encodeValue [65])])
    ∧ hcCheckClaim [(conflictedItemKey [3], encodeValue [65])]
        (popPfx ++ pack [.int 0, .bytes [3]]) (conflictedItemKey [3])
        = (.returns (some (encodeValue [65])), [])
    ∧ sleepSeconds 1 = 0 ∧ nextBackoffCs 1 = 2 ∧ nextBackoffCs 64 = 100 := by
  decide

/-- The failing input for the waiting loop: a full backlog of exactly 100
waiter records and no items. -/
def c4Store : Store :=
  (List.range 100).map
    (fun i => (popPfx ++ pack [.int (i : Int), .bytes []], ([] : List Nat)))

/-- C4 (code bug): on a full backlog the sweep reports not drained and the
Go loop spins forever on its empty body instead of re-invoking the sweep,
although one re-invocation - the behaviour the claim describes - would
report the backlog drained. -/
theorem C4_loop_spins_instead_of_reinvoking :
    fulfilConflictedPops c4Store = some ([], false)
    ∧ hcSweepLoopCode c4Store = .spins
    ∧ sweepUntilDrained 2 c4Store = some [] :=
  ⟨rfl, rfl, rfl⟩

/-- One item, no waiters: the failing input for the attempt phase. -/
def c3Store : Store := [(itemPfx ++ pack [.int 0, .bytes [1]], encodeValue [65])]

/-- C3 (code bug): on the conflict path the attempt phase reaches the
waiting loop with the store unchanged - line 213 re-commits the failed
transaction (error only printed), line 218 buffers the forced
registration into that dead transaction and line 230 resets it - so no
waiter record is ever committed; the non-conflict path panics (fatal) as
the claim says. -/
theorem C3_forced_registration_not_committed :
    hcAttempt c3Store [2] [3] .conflict .conflict
      = some (.waiting (popPfx ++ pack [.int 0, .bytes [3]]), c3Store)
    ∧ Store.get c3Store (popPfx ++ pack [.int 0, .bytes [3]]) = none
    ∧ (∀ kv ∈ c3Store, popPfx.isPrefixOf kv.1 = false)
    ∧ hcAttempt c3Store [2] [3] .fatal .ok = some (.fatal, c3Store) := by
  decide

/-! ## C9: the codec contract -/

/-- Subspace (package subspace): a raw byte prefix.  (Qualified name:
Mathlib reserves the bare name Subspace.) -/
structure subspace.Subspace where
  raw : List Nat
deriving DecidableEq, Repr

/-- Subspace.Pack: prefix ++ tuple encoding. -/
def subspace.Subspace.Pack (sp : subspace.Subspace) (t : List TElem) : List Nat :=
  sp.raw ++ pack t

/-- Subspace.Unpack: drop the prefix length, tuple-unpack the rest. -/
def subspace.Subspace.Unpack (sp : subspace.Subspace) (k : List Nat) : Option (List TElem) :=
  tupleUnpack (k.drop sp.raw.length)

theorem decodeValue_encodeValue (v : List Nat) : decodeValue (encodeValue v) = some v := by
  show decodeValue (pack [.bytes v]) = some v
  rw [decodeValue, tupleUnpack_pack [.bytes v] rfl]

/-- C9: the codec round-trips (Subspace.Unpack after Subspace.Pack is the
identity on tuples of int64-representable elements, and decodeValue after
encodeValue recovers the payload bytes), and packing realises the logical
tuple order as strict lexicographic byte order. -/
theorem C9_codec_roundtrip_and_order :
    (∀ (sp : subspace.Subspace) (t : List TElem), tupWf t = true →
      sp.Unpack (sp.Pack t) = some t)
    ∧ (∀ v : List Nat, decodeValue (encodeValue v) = some v)
    ∧ (∀ a b : List TElem, tupWf a = true → tupWf b = true → tupLt a b = true →
        keyLt (pack a) (pack b) = true) := by
  refine ⟨?_, ?_, ?_⟩
  · intro sp t hwf
    rw [subspace.Subspace.Unpack, subspace.Subspace.Pack, List.drop_left]
    exact tupleUnpack_pack t hwf
  · exact decodeValue_encodeValue
  · intro a b ha hb hab
    exact packLt hab ha hb

theorem C9_witness :
    subspace.Subspace.Unpack ⟨[7]⟩
      (subspace.Subspace.Pack ⟨[7]⟩ [.int (-5), .bytes [0, 255], .str [112]])
      = some [.int (-5), .bytes [0, 255], .str [112]]
    ∧ keyLt (pack [.int 3]) (pack [.int 3, .bytes [9]]) = true :=
  ⟨C9_codec_roundtrip_and_order.1 ⟨[7]⟩ [.int (-5), .bytes [0, 255], .str [112]] (by decide),
   C9_codec_roundtrip_and_order.2.2 [.int 3] [.int 3, .bytes [9]]
     (by decide) (by decide) (by decide)⟩

/-! ## C7: the two-push three-pop scenario -/

theorem tupWf_int_bytes (i : Int) (r : List Nat) (hi : TElem.wf (.int i) = true) :
    tupWf [TElem.int i, TElem.bytes r] = true := by
  simp [tupWf, TElem.wf] at hi ⊢
  exact hi

theorem itemKey_unpack (i : Int) (r : List Nat) (hi : TElem.wf (.int i) = true) :
    tupleUnpack ((itemKey i r).drop itemPfx.length)
      = some [TElem.int i, TElem.bytes r] := by
  rw [itemKey, List.drop_left]
  exact tupleUnpack_pack _ (tupWf_int_bytes i r hi)

/-- C7: from the empty queue, pushing payload "A" (0x41) and then "B"
(0x42) in two non-overlapping transactions assigns A index 0 and B index
1, whatever the random 20-byte suffixes; a first simple-mode Pop then
returns "A", a second returns "B", a third returns the not-found
outcome. -/
theorem C7_fifo_scenario (rA rB : List Nat) :
    Push [] [65] rA = some [(itemKey 0 rA, encodeValue [65])]
    ∧ Push [(itemKey 0 rA, encodeValue [65])] [66] rB
        = some [(itemKey 0 rA, encodeValue [65]), (itemKey 1 rB, encodeValue [66])]
    ∧ PopSimpleMode [(itemKey 0 rA, encodeValue [65]), (itemKey 1 rB, encodeValue [66])]
        = ([(itemKey 1 rB, encodeValue [66])], some [65])
    ∧ PopSimpleMode [(itemKey 1 rB, encodeValue [66])] = ([], some [66])
    ∧ PopSimpleMode ([] : Store) = ([], none) := by
  have e0 : encInt 0 = [20] := by decide
  have e1 : encInt 1 = [21, 1] := by decide
  have hkAlt : keyLt (itemKey 0 rA) (itemKey 1 rB) = true := by
    rw [itemKey, itemKey, keyLt_append_left, pack_int_cons, pack_int_cons, e0, e1]
    exact keyLt_cons_of_lt (by decide) _ _
  have hne : itemKey 1 rB ≠ itemKey 0 rA := by
    intro hEq
    rw [hEq, keyLt_irrefl] at hkAlt
    exact Bool.noConfusion hkAlt
  have hnlt : keyLt (itemKey 1 rB) (itemKey 0 rA) = false := keyLt_asymm hkAlt
  have hinA : inRange (rangeLo itemPfx) (rangeHi itemPfx) (itemKey 0 rA) = true :=
    inRange_packKey itemPfx (by decide) [TElem.bytes rA]
  have hinB : inRange (rangeLo itemPfx) (rangeHi itemPfx) (itemKey 1 rB) = true :=
    inRange_packKey itemPfx (by decide) [TElem.bytes rB]
  have hgni0 : GetNextIndex [] itemPfx = some 0 := rfl
  have hs1wf : Store.Wf [(itemKey 0 rA, encodeValue [65])] := by
    simp [Store.Wf]
  have hgni1 : GetNextIndex [(itemKey 0 rA, encodeValue [65])] itemPfx = some 1 := by
    have := getNextIndex_eq_of_max hs1wf itemPfx (List.mem_cons_self _ _) hinA
      (by
        intro kv hkv _
        rcases List.mem_cons.mp hkv with h | h
        · exact Or.inl (by rw [h])
        · cases h)
      (itemKey_unpack 0 rA (by decide))
    simpa using this
  have hs2 : Store.set [(itemKey 0 rA, encodeValue [65])] (itemKey 1 rB) (encodeValue [66])
      = [(itemKey 0 rA, encodeValue [65]), (itemKey 1 rB, encodeValue [66])] := by
    simp [Store.set, hnlt, hne]
  have hfirst2 : getFirstItem [(itemKey 0 rA, encodeValue [65]), (itemKey 1 rB, encodeValue [66])]
      = some (itemKey 0 rA, encodeValue [65]) := by
    rw [getFirstItem, Store.range]
    simp [List.filter_cons, hinA, hinB]
  have hfirst1 : getFirstItem [(itemKey 1 rB, encodeValue [66])]
      = some (itemKey 1 rB, encodeValue [66]) := by
    rw [getFirstItem, Store.range]
    simp [List.filter_cons, hinB]
  have hclr2 : Store.clear [(itemKey 0 rA, encodeValue [65]), (itemKey 1 rB, encodeValue [66])]
      (itemKey 0 rA) = [(itemKey 1 rB, encodeValue [66])] := by
    simp [Store.clear]
  have hclr1 : Store.clear [(itemKey 1 rB, encodeValue [66])] (itemKey 1 rB) = [] := by
    simp [Store.clear]
  refine ⟨?_, ?_, ?_, ?_, rfl⟩
  · rw [Push, hgni0]
    rfl
  · rw [Push, hgni1]
    show some (Store.set [(itemKey 0 rA, encodeValue [65])] (itemKey 1 rB)
      (encodeValue [66])) = _
    rw [hs2]
  · rw [PopSimpleMode, popSimple, hfirst2]
    simp [hclr2, decodeValue_encodeValue]
  · rw [PopSimpleMode, popSimple, hfirst1]
    simp [hclr1, decodeValue_encodeValue]

/-! ## C1: the fulfillment sweep -/

theorem popPfx_val : popPfx = [2, 112, 111, 112, 0] := by decide

theorem itemPfx_val : itemPfx = [2, 105, 116, 101, 109, 0] := by decide

theorem conflictPfx_val : conflictPfx = [2, 99, 111, 110, 102, 108, 105, 99, 116, 0] := by
  decide

theorem pop_conflict_append (a b : List Nat) : popPfx ++ a ≠ conflictPfx ++ b := by
  rw [popPfx_val, conflictPfx_val]
  simp

theorem pop_item_append (a b : List Nat) : popPfx ++ a ≠ itemPfx ++ b := by
  rw [popPfx_val, itemPfx_val]
  simp

theorem item_conflict_append (a b : List Nat) : itemPfx ++ a ≠ conflictPfx ++ b := by
  rw [itemPfx_val, conflictPfx_val]
  simp

theorem ne_of_disjoint_pfx {p q k1 k2 : List Nat}
    (hp : p.isPrefixOf k1 = true) (hq : q.isPrefixOf k2 = true)
    (hdis : ∀ a b : List Nat, p ++ a ≠ q ++ b) : k1 ≠ k2 := by
  intro hEq
  obtain ⟨a, ha⟩ := List.isPrefixOf_iff_prefix.mp hp
  obtain ⟨b, hb⟩ := List.isPrefixOf_iff_prefix.mp hq
  exact hdis a b (by rw [ha, hb, hEq])

theorem isPrefixOf_append_self (p x : List Nat) : p.isPrefixOf (p ++ x) = true :=
  List.isPrefixOf_iff_prefix.mpr (List.prefix_append p x)

theorem conflictedItemKey_pfx (r : List Nat) :
    conflictPfx.isPrefixOf (conflictedItemKey r) = true :=
  isPrefixOf_append_self conflictPfx _

theorem conflictedItemKey_inj {r1 r2 : List Nat}
    (h : conflictedItemKey r1 = conflictedItemKey r2) : r1 = r2 := by
  rw [conflictedItemKey, conflictedItemKey] at h
  have h2 : pack [TElem.bytes r1] = pack [TElem.bytes r2] := List.append_cancel_left h
  have h3 := @pack_injOn [TElem.bytes r1] [TElem.bytes r2] rfl rfl h2
  simpa using h3

theorem isPrefixOf_of_bounds : ∀ (pfx k : List Nat),
    keyLt k (pfx ++ [0]) = false → keyLt k (pfx ++ [255]) = true →
    pfx.isPrefixOf k = true := by
  intro pfx
  induction pfx with
  | nil => intro k _ _; cases k <;> rfl
  | cons p ps ih =>
    intro k hlo hhi
    cases k with
    | nil => simp [List.cons_append, keyLt] at hlo
    | cons a as =>
      rw [List.cons_append] at hlo hhi
      simp only [keyLt] at hlo hhi
      by_cases hap : a < p
      · simp [hap] at hlo
      · by_cases hae : a = p
        · subst hae
          simp [Nat.lt_irrefl] at hlo hhi
          show (a == a && ps.isPrefixOf as) = true
          simp [ih as hlo hhi]
        · simp [hap, hae] at hhi

theorem inRange_isPrefixOf {pfx k : List Nat}
    (h : inRange (rangeLo pfx) (rangeHi pfx) k = true) : pfx.isPrefixOf k = true := by
  rw [inRange, rangeLo, rangeHi] at h
  have hhi : keyLt k (pfx ++ [255]) = true := by
    rcases hb : keyLt k (pfx ++ [255]) with _ | _
    · rw [hb] at h; simp at h
    · rfl
  have hlo : keyLt k (pfx ++ [0]) = false := by
    rcases hb : keyLt k (pfx ++ [0]) with _ | _
    · rfl
    · rw [hb] at h; simp at h
  exact isPrefixOf_of_bounds pfx k hlo hhi

theorem zip_map_fst_eq_take {α β : Type} :
    ∀ (l1 : List α) (l2 : List β), (l1.zip l2).map Prod.fst = l1.take l2.length := by
  intro l1
  induction l1 with
  | nil => intro l2; simp
  | cons a l1' ih =>
    intro l2
    cases l2 with
    | nil => simp
    | cons b l2' => simp [List.zip_cons_cons, ih]

theorem zip_map_snd_eq_take {α β : Type} :
    ∀ (l1 : List α) (l2 : List β), (l1.zip l2).map Prod.snd = l2.take l1.length := by
  intro l1
  induction l1 with
  | nil => intro l2; simp
  | cons a l1' ih =>
    intro l2
    cases l2 with
    | nil => simp
    | cons b l2' => simp [List.zip_cons_cons, ih]

theorem keys_nodup_of_pairwise {l : List (List Nat × List Nat)}
    (h : l.Pairwise (fun a b => keyLt a.1 b.1 = true)) : (l.map Prod.fst).Nodup := by
  have h2 : (l.map Prod.fst).Pairwise (fun a b => keyLt a b = true) :=
    List.pairwise_map.mpr h
  exact h2.imp (fun hab => by
    intro hEq
    rw [hEq, keyLt_irrefl] at hab
    exact Bool.noConfusion hab)

theorem clearPops_wf : ∀ (l : List (List Nat × List Nat)) {s : Store},
    Store.Wf s → Store.Wf (clearPops s l) := by
  intro l
  induction l with
  | nil => intro s hwf; exact hwf
  | cons kv rest ih =>
    intro s hwf
    obtain ⟨pk, pv⟩ := kv
    exact ih (Store.Wf_clear hwf pk)

theorem clearPops_get_of_ne : ∀ (l : List (List Nat × List Nat)) (s : Store) {k : List Nat},
    (∀ kv ∈ l, kv.1 ≠ k) → Store.get (clearPops s l) k = Store.get s k := by
  intro l
  induction l with
  | nil => intro s k _; rfl
  | cons kv rest ih =>
    intro s k hne
    obtain ⟨pk, pv⟩ := kv
    rw [clearPops]
    rw [ih (Store.clear s pk) (fun kv hkv => hne kv (List.mem_cons_of_mem _ hkv))]
    exact Store.get_clear_ne s (fun hEq => hne (pk, pv) (List.mem_cons_self _ _) hEq.symm)

theorem clearPops_none : ∀ (l : List (List Nat × List Nat)) {s : Store} {k : List Nat},
    Store.Wf s → Store.get s k = none → Store.get (clearPops s l) k = none := by
  intro l
  induction l with
  | nil => intro s k _ h; exact h
  | cons kv rest ih =>
    intro s k hwf h
    obtain ⟨pk, pv⟩ := kv
    rw [clearPops]
    apply ih (Store.Wf_clear hwf pk)
    by_cases hEq : k = pk
    · subst hEq
      exact Store.get_clear_self hwf k
    · rw [Store.get_clear_ne s hEq]
      exact h

theorem clearPops_get_self : ∀ (l : List (List Nat × List Nat)) {s : Store},
    Store.Wf s → ∀ kv ∈ l, Store.get (clearPops s l) kv.1 = none := by
  intro l
  induction l with
  | nil => intro s _ kv hkv; cases hkv
  | cons hd rest ih =>
    intro s hwf kv hkv
    obtain ⟨pk, pv⟩ := hd
    rw [clearPops]
    rcases List.mem_cons.mp hkv with h | h
    · rw [h]
      exact clearPops_none rest (Store.Wf_clear hwf pk) (Store.get_clear_self hwf pk)
    · exact ih (Store.Wf_clear hwf pk) kv h

theorem applyMatched_spec :
    ∀ (pairs : List ((List Nat × List Nat) × (List Nat × List Nat))) (s : Store),
    Store.Wf s →
    (∀ pair ∈ pairs, Store.get s pair.2.1 = some pair.2.2) →
    ((pairs.map (fun pair => pair.2.1)).Nodup) →
    ((pairs.map (fun pair => pair.1.1)).Nodup) →
    (∀ pair ∈ pairs, popPfx.isPrefixOf pair.1.1 = true) →
    (∀ pair ∈ pairs, itemPfx.isPrefixOf pair.2.1 = true) →
    (∀ pair ∈ pairs, (ridOfPop pair.1.1).isSome = true) →
    ((pairs.filterMap (fun pair => ridOfPop pair.1.1)).Nodup) →
    ∃ s', applyMatched s pairs = some s'
      ∧ Store.Wf s'
      ∧ (∀ k, (∀ pair ∈ pairs, k ≠ pair.1.1 ∧ k ≠ pair.2.1 ∧
            ∀ rid, ridOfPop pair.1.1 = some rid → k ≠ conflictedItemKey rid) →
          Store.get s' k = Store.get s k)
      ∧ (∀ pair ∈ pairs, ∀ rid, ridOfPop pair.1.1 = some rid →
          Store.get s' (conflictedItemKey rid) = some pair.2.2)
      ∧ (∀ pair ∈ pairs, Store.get s' pair.1.1 = none)
      ∧ (∀ pair ∈ pairs, Store.get s' pair.2.1 = none) := by
  intro pairs
  induction pairs with
  | nil =>
    intro s hwf _ _ _ _ _ _ _
    exact ⟨s, rfl, hwf, fun k _ => rfl, by simp, by simp, by simp⟩
  | cons pr rest ih =>
    obtain ⟨⟨pk, pv⟩, ⟨ik, iv⟩⟩ := pr
    intro s hwf hpresent hikdup hpkdup hpop hitem hdec hridnodup
    obtain ⟨rid, hrid⟩ := Option.isSome_iff_exists.mp (hdec _ (List.mem_cons_self _ _))
    have hpk1 : popPfx.isPrefixOf pk = true := hpop _ (List.mem_cons_self _ _)
    have hik1 : itemPfx.isPrefixOf ik = true := hitem _ (List.mem_cons_self _ _)
    have hslot_pfx : conflictPfx.isPrefixOf (conflictedItemKey rid) = true :=
      conflictedItemKey_pfx rid
    -- the one-step store
    set s1 : Store :=
      Store.clear (Store.clear (Store.set s (conflictedItemKey rid) iv) pk) ik with hs1
    have hwf1 : Store.Wf s1 :=
      Store.Wf_clear (Store.Wf_clear (Store.Wf_set hwf _ _) pk) ik
    -- key disequalities for this step
    have hslot_ne_pk : conflictedItemKey rid ≠ pk :=
      ne_of_disjoint_pfx hslot_pfx hpk1
        (fun a b h => pop_conflict_append b a h.symm)
    have hslot_ne_ik : conflictedItemKey rid ≠ ik :=
      ne_of_disjoint_pfx hslot_pfx hik1
        (fun a b h => item_conflict_append b a h.symm)
    have hpk_ne_ik : pk ≠ ik :=
      ne_of_disjoint_pfx hpk1 hik1 pop_item_append
    -- nodups of the tail, and the head rid is fresh
    have hikdup' := (List.nodup_cons.mp hikdup).2
    have hiknotin2 : ik ∉ rest.map (fun pair => pair.2.1) := (List.nodup_cons.mp hikdup).1
    have hpkdup' := (List.nodup_cons.mp hpkdup).2
    have hpknotin2 : pk ∉ rest.map (fun pair => pair.1.1) := (List.nodup_cons.mp hpkdup).1
    have hfm : (((⟨⟨pk, pv⟩, ⟨ik, iv⟩⟩ :: rest).filterMap (fun pair => ridOfPop pair.1.1)))
        = rid :: rest.filterMap (fun pair => ridOfPop pair.1.1) := by
      rw [List.filterMap_cons]
      simp [hrid]
    have hridnotin : rid ∉ rest.filterMap (fun pair => ridOfPop pair.1.1) := by
      rw [hfm] at hridnodup
      exact (List.nodup_cons.mp hridnodup).1
    have hridnodup' : (rest.filterMap (fun pair => ridOfPop pair.1.1)).Nodup := by
      rw [hfm] at hridnodup
      exact (List.nodup_cons.mp hridnodup).2
    -- rest preconditions hold on s1
    have hpresent1 : ∀ pair ∈ rest, Store.get s1 pair.2.1 = some pair.2.2 := by
      intro pair hpair
      have hne_ik : pair.2.1 ≠ ik := by
        intro hEq
        apply hiknotin2
        rw [← hEq]
        exact List.mem_map_of_mem (fun p => p.2.1) hpair
      have hne_pk : pair.2.1 ≠ pk :=
        fun hEq => (ne_of_disjoint_pfx hpk1 (hitem _ (List.mem_cons_of_mem _ hpair))
          pop_item_append) hEq.symm
      have hne_slot : pair.2.1 ≠ conflictedItemKey rid :=
        ne_of_disjoint_pfx (hitem _ (List.mem_cons_of_mem _ hpair)) hslot_pfx
          item_conflict_append
      rw [hs1, Store.get_clear_ne _ hne_ik, Store.get_clear_ne _ hne_pk,
        Store.get_set_ne _ _ hne_slot]
      exact hpresent _ (List.mem_cons_of_mem _ hpair)
    obtain ⟨s', happ, hwf', hframe, hslots, hpops, hitems⟩ :=
      ih s1 hwf1 hpresent1 hikdup' hpkdup'
        (fun pair hpair => hpop _ (List.mem_cons_of_mem _ hpair))
        (fun pair hpair => hitem _ (List.mem_cons_of_mem _ hpair))
        (fun pair hpair => hdec _ (List.mem_cons_of_mem _ hpair))
        hridnodup'
    have happCons : applyMatched s (⟨⟨pk, pv⟩, ⟨ik, iv⟩⟩ :: rest) = some s' := by
      rw [applyMatched, hrid]
      exact happ
    -- a key the frame of the tail leaves alone, described from the head's view
    have hframe_head : ∀ k, k ≠ pk → k ≠ ik → k ≠ conflictedItemKey rid →
        (∀ pair ∈ rest, k ≠ pair.1.1 ∧ k ≠ pair.2.1 ∧
          ∀ rid2, ridOfPop pair.1.1 = some rid2 → k ≠ conflictedItemKey rid2) →
        Store.get s' k = Store.get s k := by
      intro k hk_pk hk_ik hk_slot hrest
      rw [hframe k hrest, hs1, Store.get_clear_ne _ hk_ik, Store.get_clear_ne _ hk_pk,
        Store.get_set_ne _ _ hk_slot]
    refine ⟨s', happCons, hwf', ?_, ?_, ?_, ?_⟩
    · -- frame for the whole list
      intro k hk
      have hhead := hk _ (List.mem_cons_self _ _)
      exact hframe_head k hhead.1 hhead.2.1 (hhead.2.2 rid hrid)
        (fun pair hpair => hk pair (List.mem_cons_of_mem _ hpair))
    · -- result slots
      intro pair hpair rid2 hrid2
      rcases List.mem_cons.mp hpair with hh | hh
      · -- the head pair
        have hpair1 : pair.1.1 = pk := by rw [hh]
        rw [hpair1] at hrid2
        have hrideq : rid2 = rid := by
          rw [hrid] at hrid2
          exact (Option.some_inj.mp hrid2).symm
        subst hrideq
        have hval : pair.2.2 = iv := by rw [hh]
        rw [hval]
        -- the tail never touches this slot
        have hrest : ∀ pair2 ∈ rest, conflictedItemKey rid2 ≠ pair2.1.1 ∧
            conflictedItemKey rid2 ≠ pair2.2.1 ∧
            ∀ rid3, ridOfPop pair2.1.1 = some rid3 →
              conflictedItemKey rid2 ≠ conflictedItemKey rid3 := by
          intro pair2 hpair2
          refine ⟨ne_of_disjoint_pfx hslot_pfx (hpop _ (List.mem_cons_of_mem _ hpair2))
              (fun a b h => pop_conflict_append b a h.symm),
            ne_of_disjoint_pfx hslot_pfx (hitem _ (List.mem_cons_of_mem _ hpair2))
              (fun a b h => item_conflict_append b a h.symm), ?_⟩
          intro rid3 hrid3 hEq
          have : rid2 = rid3 := conflictedItemKey_inj hEq
          subst this
          exact hridnotin (List.mem_filterMap.mpr ⟨pair2, hpair2, hrid3⟩)
        rw [hframe _ hrest, hs1,
          Store.get_clear_ne _ hslot_ne_ik,
          Store.get_clear_ne _ hslot_ne_pk]
        exact Store.get_set_self _ _ _
      · exact hslots pair hh rid2 hrid2
    · -- every waiter key of the list is cleared
      intro pair hpair
      rcases List.mem_cons.mp hpair with hh | hh
      · have hpair1 : pair.1.1 = pk := by rw [hh]
        rw [hpair1]
        have hrest : ∀ pair2 ∈ rest, pk ≠ pair2.1.1 ∧ pk ≠ pair2.2.1 ∧
            ∀ rid3, ridOfPop pair2.1.1 = some rid3 → pk ≠ conflictedItemKey rid3 := by
          intro pair2 hpair2
          refine ⟨?_, ?_, ?_⟩
          · intro hEq
            apply hpknotin2
            rw [hEq]
            exact List.mem_map_of_mem (fun p => p.1.1) hpair2
          · exact ne_of_disjoint_pfx hpk1 (hitem _ (List.mem_cons_of_mem _ hpair2))
              pop_item_append
          · intro rid3 _
            exact ne_of_disjoint_pfx hpk1 (conflictedItemKey_pfx rid3)
              pop_conflict_append
        rw [hframe _ hrest, hs1, Store.get_clear_ne _ hpk_ne_ik]
        exact Store.get_clear_self (Store.Wf_set hwf _ _) pk
      · exact hpops pair hh
    · -- every matched item key of the list is cleared
      intro pair hpair
      rcases List.mem_cons.mp hpair with hh | hh
      · have hpair1 : pair.2.1 = ik := by rw [hh]
        rw [hpair1]
        have hrest : ∀ pair2 ∈ rest, ik ≠ pair2.1.1 ∧ ik ≠ pair2.2.1 ∧
            ∀ rid3, ridOfPop pair2.1.1 = some rid3 → ik ≠ conflictedItemKey rid3 := by
          intro pair2 hpair2
          refine ⟨?_, ?_, ?_⟩
          · exact fun hEq => (ne_of_disjoint_pfx (hpop _ (List.mem_cons_of_mem _ hpair2))
              hik1 pop_item_append) hEq.symm
          · intro hEq
            apply hiknotin2
            rw [hEq]
            exact List.mem_map_of_mem (fun p => p.2.1) hpair2
          · intro rid3 _
            exact ne_of_disjoint_pfx hik1 (conflictedItemKey_pfx rid3)
              item_conflict_append
        rw [hframe _ hrest, hs1]
        exact Store.get_clear_self (Store.Wf_clear (Store.Wf_set hwf _ _) pk) ik
      · exact hitems pair hh

/-- C1: one call of the fulfillment sweep reads up to 100 waiter records
and up to 100 item records in ascending key order in one transaction; for
every index-matched pair it writes the item's value into the result slot
keyed by the waiter's random id and clears both the waiter record and the
item record; every waiter record beyond the matched count is cleared as
well; the call returns true iff fewer than 100 waiter records were read.
The hypotheses state that the matched waiter keys decode (the code panics
otherwise) and carry pairwise-distinct random ids. -/
theorem C1_fulfil_sweep (s : Store) (hwf : Store.Wf s)
    (pops items : List (List Nat × List Nat))
    (hpops : pops = Store.range s (rangeLo popPfx) (rangeHi popPfx) 100)
    (hitems : items = Store.range s (rangeLo itemPfx) (rangeHi itemPfx) 100)
    (hdec : ∀ pair ∈ pops.zip items, (ridOfPop pair.1.1).isSome = true)
    (hridnodup : ((pops.zip items).filterMap (fun pair => ridOfPop pair.1.1)).Nodup) :
    ∃ s', fulfilConflictedPops s = some (s', decide (pops.length < 100))
      ∧ pops.length ≤ 100 ∧ items.length ≤ 100
      ∧ pops.Pairwise (fun a b => keyLt a.1 b.1 = true)
      ∧ items.Pairwise (fun a b => keyLt a.1 b.1 = true)
      ∧ (∀ pair ∈ pops.zip items, ∀ rid, ridOfPop pair.1.1 = some rid →
          Store.get s' (conflictedItemKey rid) = some pair.2.2)
      ∧ (∀ kv ∈ pops, Store.get s' kv.1 = none)
      ∧ (∀ pair ∈ pops.zip items, Store.get s' pair.2.1 = none) := by
  have hpopsPW : pops.Pairwise (fun a b => keyLt a.1 b.1 = true) := by
    rw [hpops]
    exact Store.range_pairwise hwf _ _ _
  have hitemsPW : items.Pairwise (fun a b => keyLt a.1 b.1 = true) := by
    rw [hitems]
    exact Store.range_pairwise hwf _ _ _
  have hpopPre : ∀ pair ∈ pops.zip items, popPfx.isPrefixOf pair.1.1 = true := by
    intro pair hpair
    have h1 : pair.1 ∈ pops := (List.of_mem_zip hpair).1
    rw [hpops] at h1
    exact inRange_isPrefixOf (Store.mem_range h1).2
  have hitemPre : ∀ pair ∈ pops.zip items, itemPfx.isPrefixOf pair.2.1 = true := by
    intro pair hpair
    have h2 : pair.2 ∈ items := (List.of_mem_zip hpair).2
    rw [hitems] at h2
    exact inRange_isPrefixOf (Store.mem_range h2).2
  have hpresent : ∀ pair ∈ pops.zip items, Store.get s pair.2.1 = some pair.2.2 := by
    intro pair hpair
    have h2 : pair.2 ∈ items := (List.of_mem_zip hpair).2
    rw [hitems] at h2
    exact Store.get_eq_some_of_mem hwf (Store.mem_range h2).1
  have hikdup : ((pops.zip items).map (fun pair => pair.2.1)).Nodup := by
    have he : (pops.zip items).map (fun pair => pair.2.1)
        = (items.take pops.length).map Prod.fst := by
      rw [← zip_map_snd_eq_take, List.map_map]
      rfl
    rw [he]
    exact ((List.take_sublist _ _).map Prod.fst).nodup (keys_nodup_of_pairwise hitemsPW)
  have hpkdup : ((pops.zip items).map (fun pair => pair.1.1)).Nodup := by
    have he : (pops.zip items).map (fun pair => pair.1.1)
        = (pops.take items.length).map Prod.fst := by
      rw [← zip_map_fst_eq_take, List.map_map]
      rfl
    rw [he]
    exact ((List.take_sublist _ _).map Prod.fst).nodup (keys_nodup_of_pairwise hpopsPW)
  obtain ⟨s1, happ, hwf1, hframe, hslots, hpopsClr, hitemsClr⟩ :=
    applyMatched_spec (pops.zip items) s hwf hpresent hikdup hpkdup hpopPre hitemPre
      hdec hridnodup
  have hful : fulfilConflictedPops s
      = some (clearPops s1 (pops.drop items.length), decide (pops.length < 100)) := by
    subst hpops
    subst hitems
    simp only [fulfilConflictedPops]
    rw [happ]
  refine ⟨clearPops s1 (pops.drop items.length), hful, ?_, ?_, hpopsPW, hitemsPW,
    ?_, ?_, ?_⟩
  · rw [hpops]
    exact List.length_take_le _ _
  · rw [hitems]
    exact List.length_take_le _ _
  · -- result slots survive the clearing of the excess waiters
    intro pair hpair rid hrid
    have hne : ∀ kv ∈ pops.drop items.length, kv.1 ≠ conflictedItemKey rid := by
      intro kv hkv
      have hkvp : kv ∈ pops := List.mem_of_mem_drop hkv
      rw [hpops] at hkvp
      exact ne_of_disjoint_pfx (inRange_isPrefixOf (Store.mem_range hkvp).2)
        (conflictedItemKey_pfx rid) pop_conflict_append
    rw [clearPops_get_of_ne _ _ hne]
    exact hslots pair hpair rid hrid
  · -- every waiter record read is cleared
    intro kv hkv
    have hsplit : kv ∈ pops.take items.length ++ pops.drop items.length := by
      rw [List.take_append_drop]
      exact hkv
    rcases List.mem_append.mp hsplit with hh | hh
    · have : kv ∈ (pops.zip items).map Prod.fst := by
        rw [zip_map_fst_eq_take]
        exact hh
      obtain ⟨pair, hpairmem, hpaireq⟩ := List.mem_map.mp this
      have : Store.get s1 kv.1 = none := by
        rw [← hpaireq]
        exact hpopsClr pair hpairmem
      exact clearPops_none _ hwf1 this
    · exact clearPops_get_self _ hwf1 kv hh
  · -- every matched item record is cleared
    intro pair hpair
    exact clearPops_none _ hwf1 (hitemsClr pair hpair)

def c1Store : Store :=
  [(itemKey 0 [9], encodeValue [65]),
   (popPfx ++ pack [.int 0, .bytes [1]], []),
   (popPfx ++ pack [.int 1, .bytes [2]], [])]

theorem C1_witness :
    ∃ s', fulfilConflictedPops c1Store = some (s', true)
      ∧ Store.get s' (conflictedItemKey [1]) = some (encodeValue [65]) := by
  obtain ⟨s', h1, _, _, _, _, hslot, hpop, hitem⟩ :=
    C1_fulfil_sweep c1Store (by decide) _ _ rfl rfl (by decide) (by decide)
  refine ⟨s', h1, ?_⟩
  exact hslot ((popPfx ++ pack [.int 0, .bytes [1]], []), (itemKey 0 [9], encodeValue [65]))
    (by decide) [1] (by decide)


/-! ## Counting lemmas for the no-duplication invariant -/

theorem countVal_perm {s1 s2 : Store} (h : List.Perm s1 s2) (P : List Nat → Bool)
    (v : List Nat) : countVal s1 P v = countVal s2 P v :=
  (h.filter _).length_eq

theorem countVal_cons (kv : List Nat × List Nat) (s : Store) (P : List Nat → Bool)
    (v : List Nat) : countVal (kv :: s) P v
      = (if P kv.1 && decide (kv.2 = v) then 1 else 0) + countVal s P v := by
  by_cases h : (P kv.1 && decide (kv.2 = v)) = true
  · simp [countVal, List.filter_cons, h]
    exact Nat.add_comm _ _
  · simp [countVal, List.filter_cons, h]

theorem countVal_sublist {s1 s2 : Store} (h : List.Sublist s1 s2) (P : List Nat → Bool)
    (v : List Nat) : countVal s1 P v ≤ countVal s2 P v :=
  (h.filter _).length_le

theorem countVal_clear_le (s : Store) (k : List Nat) (P : List Nat → Bool)
    (v : List Nat) : countVal (Store.clear s k) P v ≤ countVal s P v :=
  countVal_sublist (Store.clear_sublist s k) P v

theorem Store.clear_perm {s : Store} (hwf : Store.Wf s) {k u : List Nat}
    (hget : Store.get s k = some u) :
    List.Perm s ((k, u) :: Store.clear s k) := by
  induction s with
  | nil => simp [Store.get] at hget
  | cons kv rest ih =>
    obtain ⟨k0, v0⟩ := kv
    have hwf' : Store.Wf rest := (List.pairwise_cons.mp hwf).2
    by_cases hk : k0 = k
    · subst hk
      have hu : v0 = u := by simpa [Store.get] using hget
      subst hu
      simp only [Store.clear, if_pos rfl]
      exact List.Perm.refl _
    · simp only [Store.get, if_neg hk] at hget
      simp only [Store.clear, if_neg hk]
      exact List.Perm.trans (List.Perm.cons _ (ih hwf' hget)) (List.Perm.swap _ _ _)

theorem countVal_set (s : Store) (hwf : Store.Wf s) (k w v : List Nat)
    (P : List Nat → Bool) :
    countVal (Store.set s k w) P v
      = (if P k && decide (w = v) then 1 else 0) + countVal (Store.clear s k) P v := by
  rw [countVal_perm (Store.set_perm hwf k w) P v, countVal_cons]

theorem countVal_clear_get {s : Store} (hwf : Store.Wf s) {k u : List Nat}
    (hget : Store.get s k = some u) (P : List Nat → Bool) (v : List Nat) :
    countVal s P v
      = (if P k && decide (u = v) then 1 else 0) + countVal (Store.clear s k) P v := by
  rw [countVal_perm (Store.clear_perm hwf hget) P v, countVal_cons]

theorem countVal_clear_notP {s : Store} (hwf : Store.Wf s) {P : List Nat → Bool}
    {k : List Nat} (hP : P k = false) (v : List Nat) :
    countVal (Store.clear s k) P v = countVal s P v := by
  rcases hget : Store.get s k with _ | u
  · rw [Store.clear_of_get_none hget]
  · rw [countVal_clear_get hwf hget P v, hP]
    simp

theorem countVal_set_notP {s : Store} (hwf : Store.Wf s) {P : List Nat → Bool}
    {k : List Nat} (hP : P k = false) (w v : List Nat) :
    countVal (Store.set s k w) P v = countVal s P v := by
  rw [countVal_set s hwf k w v P, hP, countVal_clear_notP hwf hP v]
  simp

theorem countVal_set_le {s : Store} (hwf : Store.Wf s) (k w : List Nat)
    (P : List Nat → Bool) (v : List Nat) :
    countVal (Store.set s k w) P v ≤ countVal s P v + (if w = v then 1 else 0) := by
  rw [countVal_set s hwf k w v P]
  have h1 := countVal_clear_le s k P v
  have h2 : (if P k && decide (w = v) then 1 else 0) ≤ (if w = v then 1 else 0) := by
    cases hpk : P k <;> by_cases hw : w = v <;> simp [hw]
  rw [Nat.add_comm (countVal s P v)]
  exact Nat.add_le_add h2 h1

theorem countVal_le_of_imp {P Q : List Nat → Bool} (s : Store)
    (h : ∀ k, P k = true → Q k = true) (v : List Nat) :
    countVal s P v ≤ countVal s Q v := by
  induction s with
  | nil => exact Nat.le_refl 0
  | cons kv rest ih =>
    rw [countVal_cons, countVal_cons]
    by_cases hp : (P kv.1 && decide (kv.2 = v)) = true
    · have hp1 : P kv.1 = true := by
        cases hpk : P kv.1
        · rw [hpk] at hp; simp at hp
        · rfl
      have hp2 : decide (kv.2 = v) = true := by
        rw [hp1] at hp; simpa using hp
      have hq : (Q kv.1 && decide (kv.2 = v)) = true := by
        rw [h kv.1 hp1, hp2]; rfl
      rw [if_pos hp, if_pos hq]
      exact Nat.add_le_add_left ih 1
    · rw [if_neg hp, Nat.zero_add]
      exact Nat.le_trans ih (Nat.le_add_left _ _)

/-! ## Key classification: which namespace a key belongs to -/

theorem not_isPrefixOf_of_ne_append {p q : List Nat} (x : List Nat)
    (hdis : ∀ a b : List Nat, p ++ a ≠ q ++ b) : p.isPrefixOf (q ++ x) = false := by
  cases h : p.isPrefixOf (q ++ x) with
  | false => rfl
  | true =>
    obtain ⟨a, ha⟩ := List.isPrefixOf_iff_prefix.mp h
    exact absurd ha (hdis a x)

theorem isItemKey_false_of_pop {k : List Nat} (h : popPfx.isPrefixOf k = true) :
    isItemKey k = false := by
  obtain ⟨a, ha⟩ := List.isPrefixOf_iff_prefix.mp h
  rw [isItemKey, ← ha]
  exact not_isPrefixOf_of_ne_append a (fun c b hEq => pop_item_append b c hEq.symm)

theorem isItemKey_false_of_conflict {k : List Nat} (h : conflictPfx.isPrefixOf k = true) :
    isItemKey k = false := by
  obtain ⟨a, ha⟩ := List.isPrefixOf_iff_prefix.mp h
  rw [isItemKey, ← ha]
  exact not_isPrefixOf_of_ne_append a (fun c b => item_conflict_append c b)

theorem isItemKey_itemKey (i : Int) (r : List Nat) : isItemKey (itemKey i r) = true :=
  isPrefixOf_append_self itemPfx _

theorem slotRid_none_of_notconflict {k : List Nat}
    (h : conflictPfx.isPrefixOf k = false) : slotRid k = none := by
  simp [slotRid, h]

theorem slotRid_none_of_pop {k : List Nat} (h : popPfx.isPrefixOf k = true) :
    slotRid k = none := by
  obtain ⟨a, ha⟩ := List.isPrefixOf_iff_prefix.mp h
  apply slotRid_none_of_notconflict
  rw [← ha]
  exact not_isPrefixOf_of_ne_append a (fun c b hEq => pop_conflict_append b c hEq.symm)

theorem slotRid_none_of_item {k : List Nat} (h : itemPfx.isPrefixOf k = true) :
    slotRid k = none := by
  obtain ⟨a, ha⟩ := List.isPrefixOf_iff_prefix.mp h
  apply slotRid_none_of_notconflict
  rw [← ha]
  exact not_isPrefixOf_of_ne_append a (fun c b hEq => item_conflict_append b c hEq.symm)

theorem liveSlot_false_of_slotRid_none {c : List (List Nat)} {k : List Nat}
    (h : slotRid k = none) : liveSlot c k = false := by
  simp [liveSlot, h]

theorem slotRid_conflictedItemKey (r : List Nat) :
    slotRid (conflictedItemKey r) = some r := by
  have hdrop : (conflictedItemKey r).drop conflictPfx.length = pack [TElem.bytes r] := by
    rw [conflictedItemKey]
    exact List.drop_left _ _
  have hwf : tupWf [TElem.bytes r] = true := by simp [tupWf, TElem.wf]
  rw [slotRid, if_pos (conflictedItemKey_pfx r), hdrop, tupleUnpack_pack [TElem.bytes r] hwf]
  simp

theorem liveSlot_conflictedItemKey (c : List (List Nat)) (r : List Nat) :
    liveSlot c (conflictedItemKey r) = !(c.contains r) := by
  rw [liveSlot, slotRid_conflictedItemKey]

theorem slotRid_eq_key {k r : List Nat} (h : slotRid k = some r) :
    k = conflictedItemKey r := by
  rw [slotRid] at h
  split at h
  · split at h
    · split at h
      · rename_i hguard
        cases h
        exact hguard
      · exact Option.noConfusion h
    · exact Option.noConfusion h
  · exact Option.noConfusion h

theorem liveSlot_append_imp (c : List (List Nat)) (r : List Nat) :
    ∀ k, liveSlot (c ++ [r]) k = true → liveSlot c k = true := by
  intro k h
  rw [liveSlot] at h ⊢
  cases hs : slotRid k with
  | none => rw [hs] at h; exact h
  | some r1 =>
    rw [hs] at h
    simp [List.elem_eq_mem] at h ⊢
    exact h.1

theorem liveSlot_append_eq_of_ne (c : List (List Nat)) (r : List Nat) {k : List Nat}
    (hne : k ≠ conflictedItemKey r) : liveSlot (c ++ [r]) k = liveSlot c k := by
  rw [liveSlot, liveSlot]
  cases hs : slotRid k with
  | none => rfl
  | some r1 =>
    have hr1 : r1 ≠ r := fun hEq => hne (by rw [slotRid_eq_key hs, hEq])
    simp [List.elem_eq_mem, hr1]

theorem ite_one_zero_comm (x y : List Nat) :
    (if x = y then (1 : Nat) else 0) = (if y = x then 1 else 0) := by
  by_cases h : x = y
  · rw [if_pos h, if_pos h.symm]
  · rw [if_neg h, if_neg (fun hEq => h hEq.symm)]

theorem countVal_congr_of_entries {P Q : List Nat → Bool} {s : Store}
    (h : ∀ kv ∈ s, P kv.1 = Q kv.1) (v : List Nat) :
    countVal s P v = countVal s Q v := by
  induction s with
  | nil => rfl
  | cons kv rest ih =>
    rw [countVal_cons, countVal_cons, h kv (List.mem_cons_self _ _),
        ih (fun kv2 hkv2 => h kv2 (List.mem_cons_of_mem _ hkv2))]

theorem countVal_congr_except {P Q : List Nat → Bool} {s : Store}
    (hwf : Store.Wf s) {k0 u : List Nat} (hget : Store.get s k0 = some u)
    (hPQ : ∀ k, k ≠ k0 → P k = Q k) (hP : P k0 = true) (hQ : Q k0 = false)
    (v : List Nat) :
    countVal s P v = countVal s Q v + (if u = v then 1 else 0) := by
  have hclrP := countVal_clear_get hwf hget P v
  have hclrQ := countVal_clear_get hwf hget Q v
  have hkeys : ∀ kv ∈ Store.clear s k0, kv.1 ≠ k0 := by
    intro kv hkv hEq
    have hwfc := Store.Wf_clear hwf k0
    obtain ⟨k1, v1⟩ := kv
    have hsome : Store.get (Store.clear s k0) k1 = some v1 :=
      Store.get_eq_some_of_mem hwfc hkv
    have hEq' : k1 = k0 := hEq
    rw [hEq', Store.get_clear_self hwf k0] at hsome
    exact Option.noConfusion hsome
  have hmid : countVal (Store.clear s k0) P v = countVal (Store.clear s k0) Q v :=
    countVal_congr_of_entries (fun kv hkv => hPQ kv.1 (hkeys kv hkv)) v
  rw [hP] at hclrP
  rw [hQ] at hclrQ
  have hiteP : (if (true && decide (u = v)) = true then (1 : Nat) else 0)
      = (if u = v then 1 else 0) := by simp
  have hiteQ : (if (false && decide (u = v)) = true then (1 : Nat) else 0) = 0 := by simp
  rw [hiteP] at hclrP
  rw [hiteQ, Nat.zero_add] at hclrQ
  rw [hclrP, hclrQ, hmid, Nat.add_comm]

theorem countVal_clearPops_le : ∀ (l : List (List Nat × List Nat)) (s : Store)
    (P : List Nat → Bool) (v : List Nat),
    countVal (clearPops s l) P v ≤ countVal s P v := by
  intro l
  induction l with
  | nil => intro s P v; exact Nat.le_refl _
  | cons kv rest ih =>
    intro s P v
    obtain ⟨pk, pv⟩ := kv
    exact Nat.le_trans (ih (Store.clear s pk) P v) (countVal_clear_le s pk P v)

/-- Counting form of the fulfillment pass: applying the matched pairs never
increases the combined number of copies of a value held in the item
namespace and in live result slots. -/
theorem applyMatched_count :
    ∀ (pairs : List ((List Nat × List Nat) × (List Nat × List Nat))) (s : Store),
    Store.Wf s →
    (∀ pair ∈ pairs, Store.get s pair.2.1 = some pair.2.2) →
    ((pairs.map (fun pair => pair.2.1)).Nodup) →
    (∀ pair ∈ pairs, popPfx.isPrefixOf pair.1.1 = true) →
    (∀ pair ∈ pairs, itemPfx.isPrefixOf pair.2.1 = true) →
    ∀ {s' : Store}, applyMatched s pairs = some s' →
    Store.Wf s' ∧
    ∀ (c : List (List Nat)) (v : List Nat),
      countVal s' isItemKey v + countVal s' (liveSlot c) v
        ≤ countVal s isItemKey v + countVal s (liveSlot c) v := by
  intro pairs
  induction pairs with
  | nil =>
    intro s hwf _ _ _ _ s' happ
    have hs : s = s' := by
      have : some s = some s' := happ
      exact Option.some_inj.mp this
    subst hs
    exact ⟨hwf, fun c v => Nat.le_refl _⟩
  | cons pr rest ih =>
    obtain ⟨⟨pk, pv⟩, ⟨ik, iv⟩⟩ := pr
    intro s hwf hpresent hikdup hpop hitem s' happ
    rcases hrid : ridOfPop pk with _ | rid
    · rw [applyMatched, hrid] at happ
      exact Option.noConfusion happ
    rw [applyMatched, hrid] at happ
    have hpk1 : popPfx.isPrefixOf pk = true := hpop _ (List.mem_cons_self _ _)
    have hik1 : itemPfx.isPrefixOf ik = true := hitem _ (List.mem_cons_self _ _)
    have hslot_pfx : conflictPfx.isPrefixOf (conflictedItemKey rid) = true :=
      conflictedItemKey_pfx rid
    set s1 : Store :=
      Store.clear (Store.clear (Store.set s (conflictedItemKey rid) iv) pk) ik with hs1
    have hwfset : Store.Wf (Store.set s (conflictedItemKey rid) iv) :=
      Store.Wf_set hwf _ _
    have hwfpk : Store.Wf (Store.clear (Store.set s (conflictedItemKey rid) iv) pk) :=
      Store.Wf_clear hwfset pk
    have hwf1 : Store.Wf s1 := Store.Wf_clear hwfpk ik
    have hslot_ne_pk : conflictedItemKey rid ≠ pk :=
      ne_of_disjoint_pfx hslot_pfx hpk1 (fun a b h => pop_conflict_append b a h.symm)
    have hslot_ne_ik : conflictedItemKey rid ≠ ik :=
      ne_of_disjoint_pfx hslot_pfx hik1 (fun a b h => item_conflict_append b a h.symm)
    have hpk_ne_ik : pk ≠ ik := ne_of_disjoint_pfx hpk1 hik1 pop_item_append
    have hikdup' := (List.nodup_cons.mp hikdup).2
    have hiknotin2 : ik ∉ rest.map (fun pair => pair.2.1) := (List.nodup_cons.mp hikdup).1
    have hpresent1 : ∀ pair ∈ rest, Store.get s1 pair.2.1 = some pair.2.2 := by
      intro pair hpair
      have hne_ik : pair.2.1 ≠ ik := by
        intro hEq
        apply hiknotin2
        rw [← hEq]
        exact List.mem_map_of_mem (fun p => p.2.1) hpair
      have hne_pk : pair.2.1 ≠ pk :=
        fun hEq => (ne_of_disjoint_pfx hpk1 (hitem _ (List.mem_cons_of_mem _ hpair))
          pop_item_append) hEq.symm
      have hne_slot : pair.2.1 ≠ conflictedItemKey rid :=
        ne_of_disjoint_pfx (hitem _ (List.mem_cons_of_mem _ hpair)) hslot_pfx
          item_conflict_append
      rw [hs1, Store.get_clear_ne _ hne_ik, Store.get_clear_ne _ hne_pk,
        Store.get_set_ne _ _ hne_slot]
      exact hpresent _ (List.mem_cons_of_mem _ hpair)
    obtain ⟨hwf', hcount'⟩ := ih s1 hwf1 hpresent1 hikdup'
      (fun pair hpair => hpop _ (List.mem_cons_of_mem _ hpair))
      (fun pair hpair => hitem _ (List.mem_cons_of_mem _ hpair))
      happ
    refine ⟨hwf', ?_⟩
    intro c v
    -- get of ik survives the set at the slot and the clear of the waiter
    have hgetik : Store.get (Store.clear (Store.set s (conflictedItemKey rid) iv) pk) ik
        = some iv := by
      rw [Store.get_clear_ne _ hpk_ne_ik.symm,
        Store.get_set_ne _ _ (fun hEq => hslot_ne_ik hEq.symm)]
      exact hpresent _ (List.mem_cons_self _ _)
    -- item-side accounting
    have hA_set : countVal (Store.set s (conflictedItemKey rid) iv) isItemKey v
        = countVal s isItemKey v :=
      countVal_set_notP hwf (isItemKey_false_of_conflict hslot_pfx) iv v
    have hA_pk : countVal (Store.clear (Store.set s (conflictedItemKey rid) iv) pk)
        isItemKey v = countVal (Store.set s (conflictedItemKey rid) iv) isItemKey v :=
      countVal_clear_notP hwfset (isItemKey_false_of_pop hpk1) v
    have hA_ik := countVal_clear_get hwfpk hgetik isItemKey v
    have hA_ik' : countVal (Store.clear (Store.set s (conflictedItemKey rid) iv) pk)
        isItemKey v
        = (if iv = v then 1 else 0)
          + countVal s1 isItemKey v := by
      rw [hA_ik]
      have : (if (isItemKey ik && decide (iv = v)) = true then (1 : Nat) else 0)
          = (if iv = v then 1 else 0) := by
        rw [show isItemKey ik = true from hik1]
        simp
      rw [this]
    -- slot-side accounting
    have hR_set := countVal_set_le hwf (conflictedItemKey rid) iv (liveSlot c) v
    have hR_pk : countVal (Store.clear (Store.set s (conflictedItemKey rid) iv) pk)
        (liveSlot c) v
        = countVal (Store.set s (conflictedItemKey rid) iv) (liveSlot c) v :=
      countVal_clear_notP hwfset
        (liveSlot_false_of_slotRid_none (slotRid_none_of_pop hpk1)) v
    have hR_ik : countVal s1 (liveSlot c) v
        = countVal (Store.clear (Store.set s (conflictedItemKey rid) iv) pk)
          (liveSlot c) v := by
      rw [hs1]
      exact countVal_clear_notP hwfpk
        (liveSlot_false_of_slotRid_none (slotRid_none_of_item hik1)) v
    have hstep : countVal s1 isItemKey v + countVal s1 (liveSlot c) v
        ≤ countVal s isItemKey v + countVal s (liveSlot c) v := by
      omega
    exact Nat.le_trans (hcount' c v) hstep

theorem count_append_singleton (l : List (List Nat)) (a b : List Nat) :
    (l ++ [b]).count a = l.count a + (if b = a then 1 else 0) := by
  rw [List.count_append, List.count_singleton]
  congr 1
  by_cases h : b = a <;> simp [h]

/-- The payload pushed by one step, if any. -/
def stepPushed : QStep → List (List Nat)
  | .push v _ => [v]
  | _ => []

/-- The random id checked by one step, if any. -/
def stepConsumed : QStep → List (List Nat)
  | .consume r _ => [r]
  | _ => []

theorem pushedVals_cons (a : QStep) (l : List QStep) :
    pushedVals (a :: l) = stepPushed a ++ pushedVals l := by
  cases a <;> rfl

theorem consumeIds_cons (a : QStep) (l : List QStep) :
    consumeIds (a :: l) = stepConsumed a ++ consumeIds l := by
  cases a <;> rfl

theorem stepRun_consumed (st : QState) (a : QStep) :
    (stepRun st a).consumed = st.consumed ++ stepConsumed a := by
  cases a with
  | push v r =>
    rcases hp : Push st.store v r with _ | s' <;> simp [stepRun, hp, stepConsumed]
  | popSimple =>
    rcases hp : popSimple st.store with ⟨s', raw⟩
    rcases raw with _ | raw
    · simp [stepRun, hp, stepConsumed]
    · by_cases hd : (decodeValue raw).isSome
      · simp [stepRun, hp, hd, stepConsumed]
      · simp [stepRun, hp, hd, stepConsumed]
  | reg r forced =>
    rcases hp : addConflictedPopTx st.store [] r forced with _ | ⟨buf, w⟩ <;>
      simp [stepRun, hp, stepConsumed]
  | sweep =>
    rcases hp : fulfilConflictedPops st.store with _ | ⟨s', b⟩ <;>
      simp [stepRun, hp, stepConsumed]
  | consume r ok =>
    rcases hp : Store.get st.store (conflictedItemKey r) with _ | v <;>
      simp [stepRun, hp, stepConsumed]

/-- A fulfillment sweep that commits never increases the combined number of
copies of a value held in the item namespace and in live result slots. -/
theorem fulfil_count {s s' : Store} {b : Bool} (hwf : Store.Wf s)
    (hp : fulfilConflictedPops s = some (s', b)) :
    Store.Wf s' ∧ ∀ (c : List (List Nat)) (v : List Nat),
      countVal s' isItemKey v + countVal s' (liveSlot c) v
        ≤ countVal s isItemKey v + countVal s (liveSlot c) v := by
  simp only [fulfilConflictedPops] at hp
  set pops := Store.range s (rangeLo popPfx) (rangeHi popPfx) 100 with hpops
  set items := Store.range s (rangeLo itemPfx) (rangeHi itemPfx) 100 with hitems
  have hpopsPW : pops.Pairwise (fun a b => keyLt a.1 b.1 = true) := by
    rw [hpops]
    exact Store.range_pairwise hwf _ _ _
  have hitemsPW : items.Pairwise (fun a b => keyLt a.1 b.1 = true) := by
    rw [hitems]
    exact Store.range_pairwise hwf _ _ _
  have hpopPre : ∀ pair ∈ pops.zip items, popPfx.isPrefixOf pair.1.1 = true := by
    intro pair hpair
    have h1 : pair.1 ∈ pops := (List.of_mem_zip hpair).1
    rw [hpops] at h1
    exact inRange_isPrefixOf (Store.mem_range h1).2
  have hitemPre : ∀ pair ∈ pops.zip items, itemPfx.isPrefixOf pair.2.1 = true := by
    intro pair hpair
    have h2 : pair.2 ∈ items := (List.of_mem_zip hpair).2
    rw [hitems] at h2
    exact inRange_isPrefixOf (Store.mem_range h2).2
  have hpresent : ∀ pair ∈ pops.zip items, Store.get s pair.2.1 = some pair.2.2 := by
    intro pair hpair
    have h2 : pair.2 ∈ items := (List.of_mem_zip hpair).2
    rw [hitems] at h2
    exact Store.get_eq_some_of_mem hwf (Store.mem_range h2).1
  have hikdup : ((pops.zip items).map (fun pair => pair.2.1)).Nodup := by
    have he : (pops.zip items).map (fun pair => pair.2.1)
        = (items.take pops.length).map Prod.fst := by
      rw [← zip_map_snd_eq_take, List.map_map]
      rfl
    rw [he]
    exact ((List.take_sublist _ _).map Prod.fst).nodup (keys_nodup_of_pairwise hitemsPW)
  rcases ham : applyMatched s (pops.zip items) with _ | s1
  · rw [ham] at hp
    exact Option.noConfusion hp
  · rw [ham] at hp
    have h2 := Option.some_inj.mp hp
    have hs' : clearPops s1 (pops.drop items.length) = s' := congrArg Prod.fst h2
    obtain ⟨hwf1, hcount1⟩ := applyMatched_count (pops.zip items) s hwf hpresent hikdup
      hpopPre hitemPre ham
    rw [← hs']
    exact ⟨clearPops_wf _ hwf1, fun c v =>
      Nat.le_trans
        (Nat.add_le_add (countVal_clearPops_le _ _ _ _) (countVal_clearPops_le _ _ _ _))
        (hcount1 c v)⟩

/-- One committed step preserves well-formedness of the store and the bound
of the linear resource count by the number of matching pushes, provided the
step's final check (if any) uses a not-yet-checked random id. -/
theorem stepRun_inv (st : QState) (pushed : List (List Nat)) (a : QStep)
    (hwf : Store.Wf st.store)
    (hcnt : ∀ v, totalCount st v ≤ (pushed.map encodeValue).count v)
    (hfresh : ∀ r ∈ stepConsumed a, r ∉ st.consumed) :
    Store.Wf (stepRun st a).store ∧
    ∀ v, totalCount (stepRun st a) v
      ≤ ((pushed ++ stepPushed a).map encodeValue).count v := by
  cases a with
  | push v0 r =>
    simp only [stepPushed]
    rcases hp : Push st.store v0 r with _ | s'
    · have hrun : stepRun st (.push v0 r) = st := by simp [stepRun, hp]
      rw [hrun]
      refine ⟨hwf, ?_⟩
      intro v
      rw [List.map_append, List.count_append]
      exact Nat.le_trans (hcnt v) (Nat.le_add_right _ _)
    · have hrun : stepRun st (.push v0 r) = { st with store := s' } := by
        simp [stepRun, hp]
      rcases hgi : GetNextIndex st.store itemPfx with _ | idx
      · rw [Push, hgi] at hp
        exact Option.noConfusion hp
      · rw [Push, hgi] at hp
        have hs' : s' = pushAt st.store v0 idx r := (Option.some_inj.mp hp).symm
        rw [pushAt] at hs'
        rw [hrun]
        subst hs'
        refine ⟨Store.Wf_set hwf _ _, ?_⟩
        intro v
        show countVal (Store.set st.store (itemKey idx r) (encodeValue v0)) isItemKey v
            + countVal (Store.set st.store (itemKey idx r) (encodeValue v0))
                (liveSlot st.consumed) v
            + st.delivered.count v
          ≤ ((pushed ++ [v0]).map encodeValue).count v
        have hA := countVal_set_le hwf (itemKey idx r) (encodeValue v0) isItemKey v
        have hR : countVal (Store.set st.store (itemKey idx r) (encodeValue v0))
            (liveSlot st.consumed) v
            = countVal st.store (liveSlot st.consumed) v :=
          countVal_set_notP hwf
            (liveSlot_false_of_slotRid_none (slotRid_none_of_item (isItemKey_itemKey idx r)))
            (encodeValue v0) v
        have htot := hcnt v
        rw [totalCount] at htot
        have hRHS : ((pushed ++ [v0]).map encodeValue).count v
            = (pushed.map encodeValue).count v + (if encodeValue v0 = v then 1 else 0) := by
          rw [List.map_append]
          exact count_append_singleton (pushed.map encodeValue) v (encodeValue v0)
        rw [hRHS]
        omega
  | popSimple =>
    simp only [stepPushed, List.append_nil]
    rcases hg : getFirstItem st.store with _ | kv
    · have hrun : stepRun st .popSimple = st := by
        simp [stepRun, popSimple, hg]
      rw [hrun]
      exact ⟨hwf, hcnt⟩
    · obtain ⟨k, v1⟩ := kv
      have hps : popSimple st.store = (Store.clear st.store k, some v1) := by
        rw [popSimple, hg]
      have hmr : (k, v1) ∈ Store.range st.store (rangeLo itemPfx) (rangeHi itemPfx) 1 :=
        List.mem_of_mem_head? hg
      have hmem : (k, v1) ∈ st.store := (Store.mem_range hmr).1
      have hik : itemPfx.isPrefixOf k = true := inRange_isPrefixOf (Store.mem_range hmr).2
      have hget : Store.get st.store k = some v1 := Store.get_eq_some_of_mem hwf hmem
      by_cases hd : (decodeValue v1).isSome
      · have hrun : stepRun st .popSimple
            = { st with store := Store.clear st.store k,
                        delivered := st.delivered ++ [v1] } := by
          simp [stepRun, hps, hd]
        rw [hrun]
        refine ⟨Store.Wf_clear hwf k, ?_⟩
        intro v
        show countVal (Store.clear st.store k) isItemKey v
            + countVal (Store.clear st.store k) (liveSlot st.consumed) v
            + (st.delivered ++ [v1]).count v
          ≤ (pushed.map encodeValue).count v
        have hA := countVal_clear_get hwf hget isItemKey v
        have hA' : countVal st.store isItemKey v
            = (if v1 = v then 1 else 0) + countVal (Store.clear st.store k) isItemKey v := by
          rw [hA]
          have hb : (if (isItemKey k && decide (v1 = v)) = true then (1 : Nat) else 0)
              = (if v1 = v then 1 else 0) := by
            rw [show isItemKey k = true from hik]
            simp
          rw [hb]
        have hR : countVal (Store.clear st.store k) (liveSlot st.consumed) v
            = countVal st.store (liveSlot st.consumed) v :=
          countVal_clear_notP hwf
            (liveSlot_false_of_slotRid_none (slotRid_none_of_item hik)) v
        have hD := count_append_singleton st.delivered v v1
        have htot := hcnt v
        rw [totalCount] at htot
        omega
      · have hrun : stepRun st .popSimple = st := by simp [stepRun, hps, hd]
        rw [hrun]
        exact ⟨hwf, hcnt⟩
  | reg r forced =>
    simp only [stepPushed, List.append_nil]
    rcases hp : addConflictedPopTx st.store [] r forced with _ | bufw
    · have hrun : stepRun st (.reg r forced) = st := by simp [stepRun, hp]
      rw [hrun]
      exact ⟨hwf, hcnt⟩
    · obtain ⟨buf, w⟩ := bufw
      have hrun : stepRun st (.reg r forced)
          = { st with store := applyBuf st.store buf } := by
        simp [stepRun, hp]
      rcases hgi : GetNextIndex (applyBuf st.store []) popPfx with _ | idx
      · rw [addConflictedPopTx, hgi] at hp
        exact Option.noConfusion hp
      · rw [addConflictedPopTx, hgi] at hp
        have hp' : (if idx = 0 ∧ ¬ forced = true
              then some (([] : TxnBuf), (none : Option (List Nat)))
              else some ([] ++ [(popPfx ++ pack [.int idx, .bytes r], some [])],
                some (popPfx ++ pack [.int idx, .bytes r]))) = some (buf, w) := hp
        by_cases hz : idx = 0 ∧ ¬ forced = true
        · rw [if_pos hz] at hp'
          have h2 : (([] : TxnBuf), (none : Option (List Nat))) = (buf, w) :=
            Option.some_inj.mp hp'
          have hbuf : buf = [] := (congrArg Prod.fst h2).symm
          rw [hrun, hbuf]
          exact ⟨hwf, hcnt⟩
        · rw [if_neg hz] at hp'
          have h2 := Option.some_inj.mp hp'
          have hbuf : buf = [(popPfx ++ pack [.int idx, .bytes r], some [])] := by
            have h3 := congrArg Prod.fst h2
            simpa using h3.symm
          have happly : applyBuf st.store buf
              = Store.set st.store (popPfx ++ pack [.int idx, .bytes r]) [] := by
            rw [hbuf]
            rfl
          rw [hrun, happly]
          have hpkpfx : popPfx.isPrefixOf (popPfx ++ pack [.int idx, .bytes r]) = true :=
            isPrefixOf_append_self _ _
          refine ⟨Store.Wf_set hwf _ _, ?_⟩
          intro v
          show countVal (Store.set st.store (popPfx ++ pack [.int idx, .bytes r]) [])
              isItemKey v
              + countVal (Store.set st.store (popPfx ++ pack [.int idx, .bytes r]) [])
                  (liveSlot st.consumed) v
              + st.delivered.count v
            ≤ (pushed.map encodeValue).count v
          have hA : countVal (Store.set st.store (popPfx ++ pack [.int idx, .bytes r]) [])
              isItemKey v = countVal st.store isItemKey v :=
            countVal_set_notP hwf (isItemKey_false_of_pop hpkpfx) [] v
          have hR : countVal (Store.set st.store (popPfx ++ pack [.int idx, .bytes r]) [])
              (liveSlot st.consumed) v = countVal st.store (liveSlot st.consumed) v :=
            countVal_set_notP hwf
              (liveSlot_false_of_slotRid_none (slotRid_none_of_pop hpkpfx)) [] v
          have htot := hcnt v
          rw [totalCount] at htot
          omega
  | sweep =>
    simp only [stepPushed, List.append_nil]
    rcases hp : fulfilConflictedPops st.store with _ | s'b
    · have hrun : stepRun st .sweep = st := by simp [stepRun, hp]
      rw [hrun]
      exact ⟨hwf, hcnt⟩
    · obtain ⟨s', b⟩ := s'b
      have hrun : stepRun st .sweep = { st with store := s' } := by simp [stepRun, hp]
      obtain ⟨hwf', hcount'⟩ := fulfil_count hwf hp
      rw [hrun]
      refine ⟨hwf', ?_⟩
      intro v
      show countVal s' isItemKey v + countVal s' (liveSlot st.consumed) v
          + st.delivered.count v ≤ (pushed.map encodeValue).count v
      have htot := hcnt v
      rw [totalCount] at htot
      have hc := hcount' st.consumed v
      omega
  | consume r ok =>
    simp only [stepPushed, List.append_nil]
    have hrne : r ∉ st.consumed := hfresh r (by simp [stepConsumed])
    rcases hg : Store.get st.store (conflictedItemKey r) with _ | v0
    · have hrun : stepRun st (.consume r ok)
          = { st with consumed := st.consumed ++ [r] } := by simp [stepRun, hg]
      rw [hrun]
      refine ⟨hwf, ?_⟩
      intro v
      show countVal st.store isItemKey v
          + countVal st.store (liveSlot (st.consumed ++ [r])) v
          + st.delivered.count v ≤ (pushed.map encodeValue).count v
      have hR : countVal st.store (liveSlot (st.consumed ++ [r])) v
          ≤ countVal st.store (liveSlot st.consumed) v :=
        countVal_le_of_imp st.store (liveSlot_append_imp st.consumed r) v
      have htot := hcnt v
      rw [totalCount] at htot
      omega
    · have hlive : liveSlot st.consumed (conflictedItemKey r) = true := by
        rw [liveSlot_conflictedItemKey]
        simp [List.elem_eq_mem, hrne]
      have hdead : liveSlot (st.consumed ++ [r]) (conflictedItemKey r) = false := by
        rw [liveSlot_conflictedItemKey]
        simp [List.elem_eq_mem]
      have hPQ : ∀ k, k ≠ conflictedItemKey r →
          liveSlot st.consumed k = liveSlot (st.consumed ++ [r]) k :=
        fun k hk => (liveSlot_append_eq_of_ne st.consumed r hk).symm
      have hexch := fun v => countVal_congr_except hwf hg hPQ hlive hdead v
      cases ok with
      | false =>
        have hrun : stepRun st (.consume r false)
            = { store := st.store, delivered := st.delivered ++ [v0],
                consumed := st.consumed ++ [r] } := by
          simp [stepRun, hg]
        rw [hrun]
        refine ⟨hwf, ?_⟩
        intro v
        show countVal st.store isItemKey v
            + countVal st.store (liveSlot (st.consumed ++ [r])) v
            + (st.delivered ++ [v0]).count v ≤ (pushed.map encodeValue).count v
        have hD := count_append_singleton st.delivered v v0
        have htot := hcnt v
        rw [totalCount] at htot
        have hx := hexch v
        omega
      | true =>
        have hrun : stepRun st (.consume r true)
            = { store := Store.clear st.store (conflictedItemKey r),
                delivered := st.delivered ++ [v0],
                consumed := st.consumed ++ [r] } := by
          simp [stepRun, hg]
        rw [hrun]
        refine ⟨Store.Wf_clear hwf _, ?_⟩
        intro v
        show countVal (Store.clear st.store (conflictedItemKey r)) isItemKey v
            + countVal (Store.clear st.store (conflictedItemKey r))
                (liveSlot (st.consumed ++ [r])) v
            + (st.delivered ++ [v0]).count v ≤ (pushed.map encodeValue).count v
        have hA : countVal (Store.clear st.store (conflictedItemKey r)) isItemKey v
            = countVal st.store isItemKey v :=
          countVal_clear_notP hwf
            (isItemKey_false_of_conflict (conflictedItemKey_pfx r)) v
        have hR1 : countVal (Store.clear st.store (conflictedItemKey r))
            (liveSlot (st.consumed ++ [r])) v
            ≤ countVal (Store.clear st.store (conflictedItemKey r))
                (liveSlot st.consumed) v :=
          countVal_le_of_imp _ (liveSlot_append_imp st.consumed r) v
        have hR2 := countVal_clear_get hwf hg (liveSlot st.consumed) v
        have hR2' : countVal st.store (liveSlot st.consumed) v
            = (if v0 = v then 1 else 0)
              + countVal (Store.clear st.store (conflictedItemKey r))
                  (liveSlot st.consumed) v := by
          rw [hR2]
          have hb : (if (liveSlot st.consumed (conflictedItemKey r) && decide (v0 = v))
                = true then (1 : Nat) else 0) = (if v0 = v then 1 else 0) := by
            rw [hlive]
            simp
          rw [hb]
        have hD := count_append_singleton st.delivered v v0
        have htot := hcnt v
        rw [totalCount] at htot
        omega

theorem nodup_of_count_le_one : ∀ {l : List (List Nat)},
    (∀ a, l.count a ≤ 1) → l.Nodup := by
  intro l
  induction l with
  | nil => intro _; exact List.nodup_nil
  | cons a l ih =>
    intro h
    refine List.nodup_cons.mpr ⟨?_, ih ?_⟩
    · intro hmem
      have h1 := h a
      rw [List.count_cons_self] at h1
      have h2 : 0 < l.count a := List.count_pos_iff.mpr hmem
      omega
    · intro b
      refine Nat.le_trans ?_ (h b)
      rw [List.count_cons]
      exact Nat.le_add_right _ _

theorem count_le_one_of_nodup : ∀ {l : List (List Nat)}, l.Nodup →
    ∀ a, l.count a ≤ 1 := by
  intro l
  induction l with
  | nil => intro _ a; exact Nat.zero_le 1
  | cons x l ih =>
    intro h a
    obtain ⟨hx, hl⟩ := List.nodup_cons.mp h
    rw [List.count_cons]
    by_cases hax : a = x
    · subst hax
      have h0 : l.count a = 0 := List.count_eq_zero.mpr hx
      simp [h0]
    · have hbeq : (x == a) = false := by
        simp
        exact fun hEq => hax hEq.symm
      rw [hbeq]
      simpa using ih hl a

/-- The linear-resource invariant holds along every trace, starting from
any state whose counts are bounded by a list of past pushes and whose
checked ids stay disjoint from the trace's final checks. -/
theorem runTrace_inv : ∀ (steps : List QStep) (st : QState) (pushed : List (List Nat)),
    Store.Wf st.store →
    (∀ v, totalCount st v ≤ (pushed.map encodeValue).count v) →
    (st.consumed ++ consumeIds steps).Nodup →
    Store.Wf (steps.foldl stepRun st).store ∧
    ∀ v, totalCount (steps.foldl stepRun st) v
      ≤ ((pushed ++ pushedVals steps).map encodeValue).count v := by
  intro steps
  induction steps with
  | nil =>
    intro st pushed hwf hcnt _
    simpa using ⟨hwf, hcnt⟩
  | cons a rest ih =>
    intro st pushed hwf hcnt hnodup
    rw [List.foldl_cons]
    have hnodup' : (st.consumed ++ (stepConsumed a ++ consumeIds rest)).Nodup := by
      rw [← consumeIds_cons]
      exact hnodup
    have hfresh : ∀ r ∈ stepConsumed a, r ∉ st.consumed := by
      intro r hr hrc
      have hdisj := (List.nodup_append.mp hnodup').2.2
      exact hdisj hrc (List.mem_append_left _ hr)
    obtain ⟨hwf1, hcnt1⟩ := stepRun_inv st pushed a hwf hcnt hfresh
    have hnodup1 : ((stepRun st a).consumed ++ consumeIds rest).Nodup := by
      rw [stepRun_consumed, List.append_assoc]
      exact hnodup'
    obtain ⟨hwf2, hcnt2⟩ := ih (stepRun st a) (pushed ++ stepPushed a) hwf1 hcnt1 hnodup1
    refine ⟨hwf2, ?_⟩
    intro v
    rw [pushedVals_cons, ← List.append_assoc]
    exact hcnt2 v

/-- C2: along every trace of committed queue transactions in which the
pushed payloads are pairwise distinct and every popper runs its final
check under a distinct random id, no payload is delivered twice: the list
of raw values handed to poppers (directly by popSimple or through a result
slot filled by the fulfillment sweep) has no duplicates, and every
delivered value is the encoding of some pushed payload. -/
theorem C2_no_duplication (steps : List QStep)
    (hpush : (pushedVals steps).Nodup)
    (hcons : (consumeIds steps).Nodup) :
    (runTrace steps).delivered.Nodup ∧
    ∀ v ∈ (runTrace steps).delivered, v ∈ (pushedVals steps).map encodeValue := by
  have hinit1 : Store.Wf initQState.store := List.Pairwise.nil
  have hinit2 : ∀ v, totalCount initQState v
      ≤ (([] : List (List Nat)).map encodeValue).count v := by
    intro v
    simp [totalCount, initQState, countVal]
  have hinit3 : (initQState.consumed ++ consumeIds steps).Nodup := by
    simpa [initQState] using hcons
  obtain ⟨hwf, hcnt⟩ := runTrace_inv steps initQState [] hinit1 hinit2 hinit3
  have hcnt' : ∀ v, (runTrace steps).delivered.count v
      ≤ ((pushedVals steps).map encodeValue).count v := by
    intro v
    have h1 := hcnt v
    rw [List.nil_append, totalCount] at h1
    have h2 : (runTrace steps).delivered.count v
        ≤ totalCount (runTrace steps) v := by
      rw [totalCount]
      exact Nat.le_add_left _ _
    rw [totalCount] at h2
    exact Nat.le_trans h2 h1
  have hmapnodup : ((pushedVals steps).map encodeValue).Nodup := by
    refine List.Nodup.map ?_ hpush
    intro a b hEq
    have h := congrArg decodeValue hEq
    rw [decodeValue_encodeValue, decodeValue_encodeValue] at h
    exact Option.some_inj.mp h
  constructor
  · apply nodup_of_count_le_one
    intro v
    exact Nat.le_trans (hcnt' v) (count_le_one_of_nodup hmapnodup v)
  · intro v hv
    have h1 : 0 < (runTrace steps).delivered.count v := List.count_pos_iff.mpr hv
    exact List.count_pos_iff.mp (Nat.lt_of_lt_of_le h1 (hcnt' v))

def c2Steps : List QStep :=
  [QStep.push [65] [9], QStep.push [66] [10], QStep.popSimple,
   QStep.reg [3] true, QStep.sweep, QStep.consume [3] true]

theorem C2_witness :
    (pushedVals c2Steps).Nodup ∧ (consumeIds c2Steps).Nodup ∧
    ((runTrace c2Steps).delivered.Nodup ∧
      ∀ v ∈ (runTrace c2Steps).delivered, v ∈ (pushedVals c2Steps).map encodeValue) :=
  ⟨by decide, by decide, C2_no_duplication c2Steps (by decide) (by decide)⟩
